import Mathlib

/-!
# godepo: the import scanner of `parser/parser.go`

A shallow embedding of `Parser.filepathWalkHandler`, `Parser.Parse` and
`Parser.parseFilesForPackages`, and the properties of the scan.

Modelling conventions.

* A Go `string` is a `List Char`.  Every separator, cut set and search
  pattern in the source is ASCII, so the byte-wise library functions
  (`strings.Contains`, `strings.Trim`, `strings.TrimLeft`, `strings.Split`,
  `strings.HasSuffix`) act on UTF-8 text exactly as the character-wise
  functions below.
* `ioutil.ReadFile` is not modelled: the scan takes the contents of the
  files of `p.files`, in order (a failed read ends the process in
  `log.Fatalf`).
* `filepath.Walk` is given by the list of the calls of the handler that it
  makes, in order (`FileSystem.entries`); a call may come with a nil file info.
* Logging is not modelled; the global `debug` flag is an explicit argument.
* An index expression or a method call that would panic yields `none`.
-/

namespace Godepo

/-- A Go string, as its sequence of characters. -/
abbrev GoString := List Char

/-! ## The functions of package `strings` that the parser calls -/

/-- Go `strings.Contains(s, substr)`: `substr` occurs in `s`. -/
def Contains : GoString → GoString → Bool
  | [], substr => substr.isEmpty
  | c :: cs, substr => List.isPrefixOf substr (c :: cs) || Contains cs substr

/-- Go `strings.HasSuffix(s, suffix)`. -/
def HasSuffix (s suffix : GoString) : Bool :=
  List.isPrefixOf suffix.reverse s.reverse

/-- Go `strings.TrimLeft(s, cutset)`: drop the leading characters that are in `cutset`. -/
def TrimLeft (s cutset : GoString) : GoString :=
  s.dropWhile (fun c => cutset.contains c)

/-- Go `strings.TrimRight(s, cutset)`: drop the trailing characters that are in `cutset`. -/
def TrimRight (s cutset : GoString) : GoString :=
  s.rdropWhile (fun c => cutset.contains c)

/-- Go `strings.Trim(s, cutset)`: drop leading and trailing characters that are in `cutset`. -/
def Trim (s cutset : GoString) : GoString :=
  TrimLeft (TrimRight s cutset) cutset

/-- Go `strings.Split(s, sep)` for a one-character separator `sep` (the parser
only splits on `"\n"`, `" "` and `"/"`): the pieces of `s` between the
occurrences of `sep`; there is always at least one piece. -/
def Split : GoString → Char → List GoString
  | [], _ => [[]]
  | c :: cs, sep =>
    if c = sep then [] :: Split cs sep
    else
      match Split cs sep with
      | [] => [[c]]
      | w :: ws => (c :: w) :: ws

/-! ## `Parser` and the walk handler -/

/-- The `Parser` struct: the list of files collected by the walk. -/
structure Parser where
  files : List GoString
  deriving DecidableEq

/-- `Parser.filepathWalkHandler(path, info, err)`.  `info` is `none` for a nil
`os.FileInfo`, which `filepath.Walk` passes after a failed `lstat`, and
`some d` for a file info whose `IsDir()` is `d`; `err` is never read.  The
result is the parser after the call and the returned error, `none` for `nil`;
the result is `none` when the call panics, at `info.IsDir()` on a nil `info`. -/
def filepathWalkHandler (p : Parser) (path : GoString) (info : Option Bool)
    (_err : Option GoString) : Option (Parser × Option GoString) :=
  -- Skip vendor directory and all it's contents.
  if Contains path "/vendor/".toList then some (p, none)
  else
    match info with
    | none => none
    | some isDir =>
      -- Check that we have file here, not a directory.
      if isDir then some (p, none)
      -- Do not append files that didn't end on ".go".
      else if !HasSuffix path ".go".toList then some (p, none)
      else some ({ p with files := p.files ++ [path] }, none)

/-! ## The scan of one line -/

/-- The variables of `parseFilesForPackages` that live across lines:
`packages` across the whole scan, the three flags within one file. -/
structure ScanState where
  packages : List GoString
  importsStart : Bool
  importsEnd : Bool
  multilineComment : Bool
  deriving DecidableEq

/-- The state at the first line of a file: the flags are declared `false`,
`packages` is what the earlier files have left. -/
def fileStart (packages : List GoString) : ScanState :=
  { packages := packages, importsStart := false, importsEnd := false,
    multilineComment := false }

/-- Lines 178-185, "Do some magic": the candidate is recomputed from the
whole line, trimmed of spaces, then tabs, then double quotes, then of
leading `_`, space and double quote characters. -/
def cleanPackageName (line : GoString) : GoString :=
  let packageName := Trim line " ".toList
  let packageName := Trim packageName "\t".toList
  let packageName := Trim packageName "\"".toList
  TrimLeft packageName "_ \"".toList

/-- Lines 198-207, "Check for uniquiness": the loop over `packages` clears
`packageUnique` at every equal entry, and the candidate is appended when the
flag is still set. -/
def addUnique (packages : List GoString) (packageName : GoString) : List GoString :=
  let packageUnique :=
    packages.foldl (fun unique p => if p = packageName then false else unique) true
  if packageUnique then packages ++ [packageName] else packages

/-- Lines 176-208: what the loop body does with a non-empty `packageName`.
The second component tells whether the line ends in `break`. -/
def classify (line : GoString) (st : ScanState) : Option (ScanState × Bool) :=
  let packageName := cleanPackageName line
  match (Split packageName '/')[0]? with
  | none => none
  | some packageDomain =>
    -- no dots in first part of package name: builtin, `continue`
    if !Contains packageDomain ".".toList then some (st, false)
    else some ({ st with packages := addUnique st.packages packageName }, st.importsEnd)

/-- Lines 171-212: the rest of the loop body, entered with the value that
`packageName` has after the `if importsStart` statement. -/
def oneLineAndMagic (line : GoString) (packageName : GoString) (st : ScanState) :
    Option (ScanState × Bool) :=
  -- Working with one-line imports.
  match (if Contains line "import \"".toList then (Split line ' ')[1]? else some packageName) with
  | none => none
  | some packageName =>
    if packageName ≠ [] then classify line st
    else some (st, st.importsEnd)

/-- One iteration of the loop over the lines of a file (lines 124-213).
The result is the state after the line and whether the loop is left by
`break`; `continue` and the normal end of the body both give `false`. -/
def scanLine (debug : Bool) (line : GoString) (st : ScanState) : Option (ScanState × Bool) :=
  -- Skip multiline comments.
  if Contains line "/*".toList then
    some ({ st with multilineComment := true }, false)
  else if Contains line "*/".toList && st.multilineComment then
    some ({ st with multilineComment := false }, false)
  else if !Contains line "*/".toList && st.multilineComment then
    some (st, false)
  -- Working with "import()".
  else if Contains line "import (".toList then
    some ({ st with importsStart := true }, false)
  else if st.importsStart then
    -- Stop searching for packages when imports was parsed.
    if Contains line ")".toList && debug then
      some ({ st with importsStart := false, importsEnd := true }, false)
    -- Skip comments.
    else if Contains line "//".toList then some (st, false)
    -- Skip lines that didn't start with ".
    else if !Contains line "\"".toList then some (st, false)
    else oneLineAndMagic line (Trim line " ".toList) st
  else oneLineAndMagic line [] st

/-- The loop over the lines of one file. -/
def scanLines (debug : Bool) : List GoString → ScanState → Option ScanState
  | [], st => some st
  | line :: rest, st =>
    match scanLine debug line st with
    | none => none
    | some (st1, true) => some st1
    | some (st1, false) => scanLines debug rest st1

/-- The loop over the files (lines 104-214), started with the packages found
so far: each file is split into lines and scanned with fresh flags. -/
def parseFiles (debug : Bool) : List GoString → List GoString → Option (List GoString)
  | [], packages => some packages
  | fileData :: rest, packages =>
    match scanLines debug (Split fileData '\n') (fileStart packages) with
    | none => none
    | some st => parseFiles debug rest st.packages

/-- `Parser.parseFilesForPackages`, on the contents of the files of
`p.files`: the list of unique packages, or `none` if the scan panics. -/
def parseFilesForPackages (debug : Bool) (files : List GoString) : Option (List GoString) :=
  parseFiles debug files []

/-! ## Vocabulary of the specification -/

/-- The text of a file whose lines are `lines`: the lines joined by a newline. -/
def joinLines : List GoString → GoString
  | [] => []
  | [l] => l
  | l :: r :: rest => l ++ '\n' :: joinLines (r :: rest)

/-- The first segment of a path: the text before the first `/`, or the whole
path if it has no `/`. -/
def firstSegment (p : GoString) : GoString :=
  p.takeWhile (fun c => c != '/')

/-- A path is external when its first segment contains a dot, builtin otherwise. -/
def isExternal (p : GoString) : Bool :=
  (firstSegment p).contains '.'

/-- `PackageSet.Add` of the specification: a no-op if the path is present,
otherwise the path is appended. -/
def PackageSet.Add (set : List GoString) (path : GoString) : List GoString :=
  if path ∈ set then set else set ++ [path]

/-- The first-occurrence deduplication of a list: every element once, at the
place of its first occurrence. -/
def dedupFirst : List GoString → List GoString
  | [] => []
  | x :: xs => x :: (dedupFirst xs).filter (fun y => y != x)

/-! ## Well-formed import blocks -/

/-- An indentation: `a` spaces, then `b` tabs, then `c` spaces. -/
def indent (a b c : Nat) : GoString :=
  List.replicate a ' ' ++ (List.replicate b '\t' ++ List.replicate c ' ')

/-- A plain import path: no double quote, space, newline or `)` in it, no
`/*`, `//` or `import (` in it, and no `_` at its start. -/
def plainPath (p : GoString) : Bool :=
  !p.contains '"' && !p.contains ' ' && !p.contains '\n' && !p.contains ')'
    && !Contains p "/*".toList && !Contains p "//".toList && !Contains p "import (".toList
    && p.head? != some '_'

/-- A line between `import (` and `)`: an indented double-quoted path, or a
line of any text (meant to hold a `//` comment). -/
inductive BlockLine where
  | quoted (a b c : Nat) (path : GoString)
  | comment (text : GoString)
  deriving DecidableEq

/-- The text of a block line. -/
def BlockLine.text : BlockLine → GoString
  | .quoted a b c path => indent a b c ++ ('"' :: (path ++ ['"']))
  | .comment text => text

/-- A quoted line is well formed when its path is plain; a comment line when
it contains `//`, and neither `/*`, `)` nor a newline. -/
def BlockLine.wellFormed : BlockLine → Bool
  | .quoted _ _ _ path => plainPath path
  | .comment text =>
    Contains text "//".toList && !Contains text "/*".toList && !text.contains ')'
      && !text.contains '\n'

/-- The quoted paths of the lines of a block, in line order. -/
def blockPaths : List BlockLine → List GoString
  | [] => []
  | .quoted _ _ _ path :: rest => path :: blockPaths rest
  | .comment _ :: rest => blockPaths rest

/-- The lines of a grouped import block: `import (`, the lines, `)`. -/
def blockLines (body : List BlockLine) : List GoString :=
  "import (".toList :: (body.map BlockLine.text ++ [")".toList])

/-- A file that consists of one grouped import block. -/
def blockFile (body : List BlockLine) : GoString :=
  joinLines (blockLines body)

/-- A line that imports nothing external: it does not contain `import (`, and
either it does not contain `import "` or the first segment of its cleaned
text has no dot, as for the one-line import of a builtin path (and it has no
newline in it). -/
def plainLine (l : GoString) : Bool :=
  !Contains l "import (".toList
    && (!Contains l "import \"".toList || !isExternal (cleanPackageName l))
    && !l.contains '\n'

/-- A line that imports nothing external and opens no block comment. -/
def quietLine (l : GoString) : Bool :=
  plainLine l && !Contains l "/*".toList

/-- A source file with one grouped import block: the lines before the block,
the lines of the block, the lines after its closing `)`. -/
structure SourceFile where
  header : List GoString
  body : List BlockLine
  rest : List GoString
  deriving DecidableEq

/-- The lines of a source file. -/
def SourceFile.lines (f : SourceFile) : List GoString :=
  f.header ++ (blockLines f.body ++ f.rest)

/-- The text of a source file. -/
def SourceFile.text (f : SourceFile) : GoString :=
  joinLines f.lines

/-- A source file is well formed when the lines before the block are quiet,
the lines of the block are well formed, and the lines after the block import
nothing external. -/
def SourceFile.wellFormed (f : SourceFile) : Bool :=
  f.header.all quietLine && f.body.all BlockLine.wellFormed && f.rest.all plainLine

/-- Nothing but empty lines follows the import block of the file (as after a
newline at the end of the file). -/
def SourceFile.endsAtBlock (f : SourceFile) : Bool :=
  f.rest.all List.isEmpty

/-- The quoted paths of a list of import blocks: block after block, each in
line order. -/
def pathsOf : List (List BlockLine) → List GoString
  | [] => []
  | body :: rest => blockPaths body ++ pathsOf rest

/-- The one-line import of a path: `import "path"`. -/
def singleImport (path : GoString) : GoString :=
  "import \"".toList ++ (path ++ ['"'])

/-- An import line of a block with the blank identifier: indentation, then
`_ "path"`. -/
def blankImport (a b c : Nat) (path : GoString) : GoString :=
  indent a b c ++ ("_ \"".toList ++ (path ++ ['"']))

/-! ## `Parse` -/

/-- Modelled from the spec: the type `configstruct.ConfigPackage` of package
`config/struct`, which is not among the sources.  Its fields are those of the
example in the comment on `Parse`. -/
structure ConfigPackage where
  ImportPath : GoString
  SourcePath : GoString
  VCSName : GoString
  deriving DecidableEq

/-- One call of the handler by `filepath.Walk`: the path, the file info
(`none` for nil, `some d` for an info whose `IsDir()` is `d`) and the error
of the walk at that path. -/
structure WalkCall where
  path : GoString
  info : Option Bool
  err : Option GoString
  deriving DecidableEq

/-- What `Parse` sees of the file system: the calls of the handler that
`filepath.Walk(cfg.ProjectPath, ...)` makes while the handler returns `nil`,
in order, and the result of `ioutil.ReadFile` on a path, `none` when the read
fails. -/
structure FileSystem where
  entries : List WalkCall
  readFile : GoString → Option GoString

/-- The calls of the handler by `filepath.Walk`, in turn: the walk goes on
while the handler returns `nil`, it stops when the handler returns an error,
and a panic of the handler ends the process, here `none`. -/
def walkEntries : List WalkCall → Parser → Option Parser
  | [], p => some p
  | e :: rest, p =>
    match filepathWalkHandler p e.path e.info e.err with
    | none => none
    | some (p1, none) => walkEntries rest p1
    | some (p1, some _) => some p1

/-- The call `filepath.Walk(cfg.ProjectPath, p.filepathWalkHandler)` of line
86; its returned error is not read. -/
def walk (fs : FileSystem) (p : Parser) : Option Parser :=
  walkEntries fs.entries p

/-- The reads of `parseFilesForPackages` (line 109): the contents of the files
of `p.files`, or `none` when a read fails and `log.Fatalf` ends the process. -/
def readFiles (fs : FileSystem) : List GoString → Option (List GoString)
  | [] => some []
  | path :: rest =>
    match fs.readFile path with
    | none => none
    | some fileData =>
      match readFiles fs rest with
      | none => none
      | some more => some (fileData :: more)

/-- The body of `Parse` up to line 91: the file list is reset, the walk fills
it, and `parseFilesForPackages` computes the package list.  The result is the
parser after the call and that list; `none` when the process ends before. -/
def parseRun (fs : FileSystem) (debug : Bool) (p : Parser) : Option (Parser × List GoString) :=
  let p := { p with files := [] }
  match walk fs p with
  | none => none
  | some p =>
    match readFiles fs p.files with
    | none => none
    | some contents =>
      match parseFilesForPackages debug contents with
      | none => none
      | some packages => some (p, packages)

/-- `Parser.Parse`: the list computed at line 91 is assigned to `_` and the
function returns `nil`, the empty slice.  The result is the parser after the
call and the returned slice. -/
def Parse (fs : FileSystem) (debug : Bool) (p : Parser) :
    Option (Parser × List ConfigPackage) :=
  match parseRun fs debug p with
  | none => none
  | some (p, _) => some (p, [])

/-- The entries that the specification keeps: not under `/vendor/`, with a
file info that is not of a directory, and with a path that ends in `.go`. -/
def keptEntry (e : WalkCall) : Bool :=
  !Contains e.path "/vendor/".toList && e.info == some false
    && HasSuffix e.path ".go".toList

/-! ## Facts about the string functions -/

theorem contains_iff (s sub : GoString) : Contains s sub = true ↔ sub <:+: s := by
  induction s with
  | nil => simp [Contains, List.isEmpty_iff]
  | cons c cs ih => simp [Contains, ih, List.infix_cons_iff]

theorem mem_of_contains {s sub : GoString} (h : Contains s sub = true) {c : Char}
    (hc : c ∈ sub) : c ∈ s :=
  ((contains_iff s sub).1 h).subset hc

theorem contains_single (s : GoString) (c : Char) : Contains s [c] = decide (c ∈ s) := by
  rw [Bool.eq_iff_iff, contains_iff, decide_eq_true_iff]
  constructor
  · intro h
    exact h.subset (List.mem_singleton_self c)
  · intro h
    obtain ⟨a, b, rfl⟩ := List.append_of_mem h
    exact ⟨a, b, by simp⟩

/-- A pattern that starts with a character absent from `a` can only occur in
`a ++ b` inside `b`. -/
theorem contains_append_left (a b : GoString) (c : Char) (t : GoString) (hc : c ∉ a) :
    Contains (a ++ b) (c :: t) = Contains b (c :: t) := by
  induction a with
  | nil => rfl
  | cons x xs ih =>
    have hx : c ≠ x := fun h => hc (h ▸ List.mem_cons_self _ _)
    have hxs : c ∉ xs := fun h => hc (List.mem_cons_of_mem _ h)
    rw [List.cons_append, Contains, ih hxs]
    simp [List.isPrefixOf, hx]

theorem contains_reverse (s sub : GoString) :
    Contains s.reverse sub.reverse = Contains s sub := by
  rw [Bool.eq_iff_iff, contains_iff, contains_iff, List.reverse_infix]

/-- A pattern that ends with a character other than `q` can only occur in
`b ++ [q]` inside `b`. -/
theorem contains_concat (b : GoString) (q : Char) (t : GoString) (c : Char) (hc : c ≠ q) :
    Contains (b ++ [q]) (t ++ [c]) = Contains b (t ++ [c]) := by
  rw [← contains_reverse, ← contains_reverse b]
  simp only [List.reverse_append, List.reverse_singleton, List.singleton_append]
  exact contains_append_left [q] b.reverse c t.reverse (by simpa using hc)

theorem split_ne_nil (s : GoString) (sep : Char) : Split s sep ≠ [] := by
  induction s with
  | nil => simp [Split]
  | cons c cs ih =>
    unfold Split
    split
    · simp
    · split <;> simp

/-- The first piece of a split is the text before the first separator. -/
theorem split_head (s : GoString) (sep : Char) :
    (Split s sep)[0]? = some (s.takeWhile (fun c => c != sep)) := by
  induction s with
  | nil => simp [Split]
  | cons c cs ih =>
    unfold Split
    by_cases h : c = sep
    · simp [h]
    · rw [if_neg h]
      cases hs : Split cs sep with
      | nil => exact absurd hs (split_ne_nil cs sep)
      | cons w ws =>
        rw [hs] at ih
        simp only [List.getElem?_cons_zero, Option.some.injEq] at ih
        simp [h, ih]

/-- A string that contains the separator splits into at least two pieces. -/
theorem split_second (s : GoString) (sep : Char) (h : sep ∈ s) :
    ∃ x, (Split s sep)[1]? = some x := by
  induction s with
  | nil => simp at h
  | cons c cs ih =>
    unfold Split
    by_cases hc : c = sep
    · rw [if_pos hc]
      have := split_head cs sep
      exact ⟨_, by simpa using this⟩
    · rw [if_neg hc]
      have hcs : sep ∈ cs := by
        rcases List.mem_cons.1 h with h | h
        · exact absurd h.symm hc
        · exact h
      obtain ⟨x, hx⟩ := ih hcs
      cases hs : Split cs sep with
      | nil => exact absurd hs (split_ne_nil cs sep)
      | cons w ws =>
        rw [hs] at hx
        exact ⟨x, by simpa using hx⟩

theorem split_of_not_mem (s : GoString) (sep : Char) (h : sep ∉ s) : Split s sep = [s] := by
  induction s with
  | nil => rfl
  | cons c cs ih =>
    have hc : c ≠ sep := fun e => h (e ▸ List.mem_cons_self _ _)
    have hcs : sep ∉ cs := fun e => h (List.mem_cons_of_mem _ e)
    rw [Split, if_neg hc, ih hcs]

theorem split_append (l s : GoString) (sep : Char) (h : sep ∉ l) :
    Split (l ++ sep :: s) sep = l :: Split s sep := by
  induction l with
  | nil => simp [Split]
  | cons c cs ih =>
    have hc : c ≠ sep := fun e => h (e ▸ List.mem_cons_self _ _)
    have hcs : sep ∉ cs := fun e => h (List.mem_cons_of_mem _ e)
    rw [List.cons_append, Split, if_neg hc, ih hcs]

/-- Splitting the text of a file at the newlines gives back its lines. -/
theorem split_joinLines (lines : List GoString) (hne : lines ≠ [])
    (h : ∀ l ∈ lines, '\n' ∉ l) : Split (joinLines lines) '\n' = lines := by
  induction lines with
  | nil => exact absurd rfl hne
  | cons l rest ih =>
    cases rest with
    | nil => exact split_of_not_mem l _ (h l (List.mem_cons_self _ _))
    | cons r rest =>
      rw [joinLines, split_append _ _ _ (h l (List.mem_cons_self _ _)),
        ih (by simp) (fun x hx => h x (List.mem_cons_of_mem _ hx))]

/-! ## The deduplication step and the classifier -/

theorem unique_loop (packages : List GoString) (c : GoString) (b : Bool) :
    packages.foldl (fun unique p => if p = c then false else unique) b
      = (b && decide (c ∉ packages)) := by
  induction packages generalizing b with
  | nil => simp
  | cons p ps ih =>
    rw [List.foldl_cons, ih]
    by_cases h : p = c
    · simp [h]
    · have h2 : ¬ c = p := fun e => h e.symm
      simp [h, h2]

theorem addUnique_eq_add (packages : List GoString) (c : GoString) :
    addUnique packages c = PackageSet.Add packages c := by
  unfold addUnique PackageSet.Add
  simp only [unique_loop, Bool.true_and, decide_eq_true_eq]
  by_cases h : c ∈ packages <;> simp [h]

theorem addUnique_nodup (packages : List GoString) (c : GoString) (h : packages.Nodup) :
    (addUnique packages c).Nodup := by
  rw [addUnique_eq_add]
  unfold PackageSet.Add
  by_cases hc : c ∈ packages
  · simpa [hc] using h
  · rw [if_neg hc]
    exact List.Nodup.append h (List.nodup_singleton c) (by simpa using hc)

/-- The classifier never panics: the candidate is added when its first
segment has a dot, and the line is skipped otherwise. -/
theorem classify_eq (line : GoString) (st : ScanState) :
    classify line st =
      some (if isExternal (cleanPackageName line)
        then ({ st with packages := addUnique st.packages (cleanPackageName line) }, st.importsEnd)
        else (st, false)) := by
  unfold classify
  simp only [split_head]
  have h : Contains (List.takeWhile (fun c => c != '/') (cleanPackageName line)) ".".toList
      = isExternal (cleanPackageName line) := by
    unfold isExternal firstSegment
    rw [show ".".toList = ['.'] from rfl, contains_single]
    simp
  rw [h]
  cases isExternal (cleanPackageName line) <;> simp

/-- The rest of the loop body never panics: the second piece of the split
exists whenever the line contains the one-line import pattern. -/
theorem oneLineAndMagic_some (line pn : GoString) (st : ScanState) :
    ∃ r, oneLineAndMagic line pn st = some r := by
  unfold oneLineAndMagic
  by_cases h : Contains line "import \"".toList = true
  · obtain ⟨x, hx⟩ := split_second line ' ' (mem_of_contains h (by decide))
    rw [if_pos h, hx]
    by_cases hx0 : x = []
    · simp [hx0]
    · simp [hx0, classify_eq]
  · rw [if_neg h]
    by_cases hx0 : pn = []
    · simp [hx0]
    · simp [hx0, classify_eq]

/-- What the rest of the loop body can do to the state: nothing, or add the
cleaned line, which is then external. -/
theorem oneLineAndMagic_effect (line pn : GoString) (st st1 : ScanState) (b : Bool)
    (h : oneLineAndMagic line pn st = some (st1, b)) :
    st1 = st ∨ (isExternal (cleanPackageName line) = true ∧
      st1 = { st with packages := addUnique st.packages (cleanPackageName line) }) := by
  unfold oneLineAndMagic at h
  split at h
  · exact absurd h (by simp)
  · rename_i x hx
    by_cases hx0 : x = []
    · simp only [hx0, ne_eq, not_true_eq_false, if_false, Option.some.injEq, Prod.mk.injEq] at h
      exact Or.inl h.1.symm
    · simp only [hx0, ne_eq, not_false_eq_true, if_true, classify_eq, Option.some.injEq] at h
      by_cases he : isExternal (cleanPackageName line) = true
      · simp only [he, if_true, Prod.mk.injEq] at h
        exact Or.inr ⟨he, h.1.symm⟩
      · simp only [he, Bool.false_eq_true, if_false, Prod.mk.injEq] at h
        exact Or.inl h.1.symm

theorem scanLine_some (debug : Bool) (line : GoString) (st : ScanState) :
    ∃ r, scanLine debug line st = some r := by
  unfold scanLine
  split
  · exact ⟨_, rfl⟩
  split
  · exact ⟨_, rfl⟩
  split
  · exact ⟨_, rfl⟩
  split
  · exact ⟨_, rfl⟩
  split
  · split
    · exact ⟨_, rfl⟩
    split
    · exact ⟨_, rfl⟩
    split
    · exact ⟨_, rfl⟩
    exact oneLineAndMagic_some _ _ _
  · exact oneLineAndMagic_some _ _ _

theorem scanLines_some (debug : Bool) (lines : List GoString) (st : ScanState) :
    ∃ r, scanLines debug lines st = some r := by
  induction lines generalizing st with
  | nil => exact ⟨st, rfl⟩
  | cons l ls ih =>
    obtain ⟨⟨st1, b⟩, h⟩ := scanLine_some debug l st
    cases b with
    | true => exact ⟨st1, by simp [scanLines, h]⟩
    | false =>
      obtain ⟨r, hr⟩ := ih st1
      exact ⟨r, by simp [scanLines, h, hr]⟩

theorem parseFiles_some (debug : Bool) (files : List GoString) (packages : List GoString) :
    ∃ r, parseFiles debug files packages = some r := by
  induction files generalizing packages with
  | nil => exact ⟨packages, rfl⟩
  | cons f fs ih =>
    obtain ⟨st, h⟩ := scanLines_some debug (Split f '\n') (fileStart packages)
    obtain ⟨r, hr⟩ := ih st.packages
    exact ⟨r, by simp [parseFiles, h, hr]⟩

/-- The packages after a line: those before it, or those with the cleaned
line added, which is then external. -/
theorem scanLine_packages (debug : Bool) (line : GoString) (st st1 : ScanState) (b : Bool)
    (h : scanLine debug line st = some (st1, b)) :
    st1.packages = st.packages ∨ (isExternal (cleanPackageName line) = true ∧
      st1.packages = addUnique st.packages (cleanPackageName line)) := by
  have key : ∀ pn, oneLineAndMagic line pn st = some (st1, b) →
      st1.packages = st.packages ∨ (isExternal (cleanPackageName line) = true ∧
        st1.packages = addUnique st.packages (cleanPackageName line)) := by
    intro pn hpn
    rcases oneLineAndMagic_effect line pn st st1 b hpn with e | ⟨he, e⟩
    · exact Or.inl (by rw [e])
    · exact Or.inr ⟨he, by rw [e]⟩
  unfold scanLine at h
  split at h
  · simp only [Option.some.injEq, Prod.mk.injEq] at h; exact Or.inl (by rw [← h.1])
  split at h
  · simp only [Option.some.injEq, Prod.mk.injEq] at h; exact Or.inl (by rw [← h.1])
  split at h
  · simp only [Option.some.injEq, Prod.mk.injEq] at h; exact Or.inl (by rw [← h.1])
  split at h
  · simp only [Option.some.injEq, Prod.mk.injEq] at h; exact Or.inl (by rw [← h.1])
  split at h
  · split at h
    · simp only [Option.some.injEq, Prod.mk.injEq] at h; exact Or.inl (by rw [← h.1])
    split at h
    · simp only [Option.some.injEq, Prod.mk.injEq] at h; exact Or.inl (by rw [← h.1])
    split at h
    · simp only [Option.some.injEq, Prod.mk.injEq] at h; exact Or.inl (by rw [← h.1])
    exact key _ h
  · exact key _ h

theorem scanLines_nodup (debug : Bool) (lines : List GoString) (st st1 : ScanState)
    (h : scanLines debug lines st = some st1) (hn : st.packages.Nodup) :
    st1.packages.Nodup := by
  induction lines generalizing st with
  | nil =>
    simp only [scanLines, Option.some.injEq] at h
    rw [← h]; exact hn
  | cons l ls ih =>
    obtain ⟨⟨st2, b⟩, h2⟩ := scanLine_some debug l st
    have hn2 : st2.packages.Nodup := by
      rcases scanLine_packages debug l st st2 b h2 with e | ⟨_, e⟩
      · rw [e]; exact hn
      · rw [e]; exact addUnique_nodup _ _ hn
    cases b with
    | true =>
      simp only [scanLines, h2, Option.some.injEq] at h
      rw [← h]; exact hn2
    | false =>
      simp only [scanLines, h2] at h
      exact ih st2 h hn2

theorem parseFiles_nodup (debug : Bool) (files : List GoString) (packages r : List GoString)
    (h : parseFiles debug files packages = some r) (hn : packages.Nodup) : r.Nodup := by
  induction files generalizing packages with
  | nil =>
    simp only [parseFiles, Option.some.injEq] at h
    rw [← h]; exact hn
  | cons f fs ih =>
    obtain ⟨st, hs⟩ := scanLines_some debug (Split f '\n') (fileStart packages)
    simp only [parseFiles, hs] at h
    exact ih st.packages h (scanLines_nodup debug _ _ st hs hn)

/-! ## Trimming -/

theorem trimRight_concat_neg (l cutset : GoString) (q : Char) (h : q ∉ cutset) :
    TrimRight (l ++ [q]) cutset = l ++ [q] := by
  unfold TrimRight
  exact List.rdropWhile_concat_neg _ _ _ (by simpa using h)

theorem trimRight_concat_pos (l cutset : GoString) (q : Char) (h : q ∈ cutset) :
    TrimRight (l ++ [q]) cutset = TrimRight l cutset := by
  unfold TrimRight
  exact List.rdropWhile_concat_pos _ _ _ (by simpa using h)

theorem trimLeft_replicate (n : Nat) (x : Char) (r cutset : GoString) (h : x ∈ cutset) :
    TrimLeft (List.replicate n x ++ r) cutset = TrimLeft r cutset := by
  unfold TrimLeft
  apply List.dropWhile_append_of_pos
  intro a ha
  rw [List.eq_of_mem_replicate ha]
  simpa using h

theorem trimLeft_cons_neg (x : Char) (r cutset : GoString) (h : x ∉ cutset) :
    TrimLeft (x :: r) cutset = x :: r := by
  unfold TrimLeft
  exact List.dropWhile_cons_of_neg (by simpa using h)

theorem trimLeft_all (l cutset : GoString) (h : ∀ x ∈ l, x ∈ cutset) :
    TrimLeft l cutset = [] := by
  unfold TrimLeft
  rw [List.dropWhile_eq_nil_iff]
  intro x hx
  simpa using h x hx

theorem trimLeft_append_all (l r cutset : GoString) (h : ∀ x ∈ l, x ∈ cutset) :
    TrimLeft (l ++ r) cutset = TrimLeft r cutset := by
  unfold TrimLeft
  apply List.dropWhile_append_of_pos
  intro x hx
  simpa using h x hx

/-- Trimming on the left by a cut set and then by a larger one is trimming by
the larger one. -/
theorem trimLeft_trimLeft (l small large : GoString) (h : ∀ x ∈ small, x ∈ large) :
    TrimLeft (TrimLeft l small) large = TrimLeft l large := by
  induction l with
  | nil => rfl
  | cons x xs ih =>
    by_cases hx : x ∈ small
    · have h1 : TrimLeft (x :: xs) small = TrimLeft xs small := by
        unfold TrimLeft; exact List.dropWhile_cons_of_pos (by simpa using hx)
      have h2 : TrimLeft (x :: xs) large = TrimLeft xs large := by
        unfold TrimLeft; exact List.dropWhile_cons_of_pos (by simpa using h x hx)
      rw [h1, h2, ih]
    · rw [trimLeft_cons_neg x xs small hx]

theorem mem_trimLeft (l cutset : GoString) (x : Char) (hx : x ∈ l) (hc : x ∉ cutset) :
    x ∈ TrimLeft l cutset := by
  induction l with
  | nil => simp at hx
  | cons y ys ih =>
    by_cases hy : y ∈ cutset
    · have h1 : TrimLeft (y :: ys) cutset = TrimLeft ys cutset := by
        unfold TrimLeft; exact List.dropWhile_cons_of_pos (by simpa using hy)
      rw [h1]
      rcases List.mem_cons.1 hx with e | e
      · exact absurd (e ▸ hy) hc
      · exact ih e
    · rw [trimLeft_cons_neg y ys cutset hy]; exact hx

/-- A line that ends in a character outside the cut set keeps it when trimmed. -/
theorem trim_concat_ne_nil (l cutset : GoString) (q : Char) (h : q ∉ cutset) :
    Trim (l ++ [q]) cutset ≠ [] := by
  unfold Trim
  rw [trimRight_concat_neg l cutset q h]
  exact List.ne_nil_of_mem (mem_trimLeft _ _ q (by simp) h)

/-- The last three steps of the cleaning: from a text made of characters of
the last cut set, a path and a closing quote, the path is left. -/
theorem clean_tail (junk path : GoString) (hj : ∀ x ∈ junk, x ∈ "_ \"".toList)
    (hq : '"' ∉ path) (hh : ∀ x, path.head? = some x → x ∉ "_ \"".toList) :
    TrimLeft (Trim (junk ++ (path ++ ['"'])) "\"".toList) "_ \"".toList = path := by
  unfold Trim
  rw [trimLeft_trimLeft _ _ _ (by decide), ← List.append_assoc,
    trimRight_concat_pos _ _ _ (by decide)]
  rcases List.eq_nil_or_concat path with rfl | ⟨P, z, rfl⟩
  · rw [List.append_nil]
    apply trimLeft_all
    intro x hx
    unfold TrimRight at hx
    exact hj x ((List.rdropWhile_prefix _ _).subset hx)
  · rw [List.concat_eq_append] at hq hh ⊢
    have hz : z ∉ "\"".toList := by
      intro e
      have : z = '"' := by simpa using e
      exact hq (by simp [this])
    rw [← List.append_assoc, trimRight_concat_neg _ _ _ hz, List.append_assoc,
      trimLeft_append_all _ _ _ hj]
    cases P with
    | nil => exact trimLeft_cons_neg _ _ _ (hh z rfl)
    | cons y ys => exact trimLeft_cons_neg _ _ _ (hh y rfl)

/-- The first two steps of the cleaning, on an indented text that starts with
a character `k` other than space and tab and ends in a double quote: the
indentation goes, at most the last spaces of it stay. -/
theorem clean_indent (a b c : Nat) (k : Char) (r : GoString)
    (hk1 : k ≠ ' ') (hk2 : k ≠ '\t') :
    ∃ n, Trim (Trim (indent a b c ++ (k :: (r ++ ['"']))) " ".toList) "\t".toList
      = List.replicate n ' ' ++ (k :: (r ++ ['"'])) := by
  have e1 : ∀ l : GoString, Trim (l ++ ['"']) " ".toList = TrimLeft (l ++ ['"']) " ".toList :=
    fun l => by unfold Trim; rw [trimRight_concat_neg _ _ _ (by decide)]
  have e2 : ∀ l : GoString, Trim (l ++ ['"']) "\t".toList = TrimLeft (l ++ ['"']) "\t".toList :=
    fun l => by unfold Trim; rw [trimRight_concat_neg _ _ _ (by decide)]
  have hks : k ∉ " ".toList := by simpa using hk1
  have hkt : k ∉ "\t".toList := by simpa using hk2
  have shape : ∀ l : GoString, l ++ (k :: (r ++ ['"'])) = (l ++ k :: r) ++ ['"'] := by
    intro l; simp
  unfold indent
  cases b with
  | zero =>
    refine ⟨0, ?_⟩
    simp only [List.replicate_zero, List.nil_append, List.append_assoc]
    rw [← List.append_assoc, shape, e1, ← shape, List.append_assoc,
      trimLeft_replicate _ _ _ _ (by decide), trimLeft_replicate _ _ _ _ (by decide),
      trimLeft_cons_neg _ _ _ hks]
    rw [show k :: (r ++ ['"']) = (k :: r) ++ ['"'] from rfl, e2]
    exact trimLeft_cons_neg _ _ _ hkt
  | succ b =>
    refine ⟨c, ?_⟩
    rw [shape, e1, ← shape, List.append_assoc, trimLeft_replicate _ _ _ _ (by decide),
      List.replicate_succ, List.cons_append, List.cons_append,
      trimLeft_cons_neg _ _ _ (by decide)]
    rw [← List.cons_append, ← List.cons_append, ← List.replicate_succ, shape, e2, ← shape,
      List.append_assoc, trimLeft_replicate _ _ _ _ (by decide)]
    cases c with
    | zero => exact trimLeft_cons_neg _ _ _ hkt
    | succ c =>
      rw [List.replicate_succ, List.cons_append]
      exact trimLeft_cons_neg _ _ _ (by decide)

/-! ## The lines of an import block -/

/-- The cleaning of an indented line `k…"path"`, where `k…` is made of `_`,
space and double quote and does not start with a space, leaves the path. -/
theorem clean_line (a b c : Nat) (k : Char) (ks path : GoString)
    (hk : k ≠ ' ') (hks : ∀ x ∈ k :: ks, x ∈ "_ \"".toList)
    (hq : '"' ∉ path) (hh : ∀ x, path.head? = some x → x ∉ "_ \"".toList) :
    cleanPackageName (indent a b c ++ (k :: ks ++ (path ++ ['"']))) = path := by
  have hk2 : k ≠ '\t' := by
    intro e
    have := hks k (List.mem_cons_self _ _)
    rw [e] at this
    exact absurd this (by decide)
  obtain ⟨n, hn⟩ := clean_indent a b c k (ks ++ path) hk hk2
  unfold cleanPackageName
  have e : k :: ks ++ (path ++ ['"']) = k :: (ks ++ path ++ ['"']) := by simp
  rw [e]
  show TrimLeft (Trim (Trim (Trim (indent a b c ++ k :: (ks ++ path ++ ['"'])) " ".toList)
    "\t".toList) "\"".toList) "_ \"".toList = path
  rw [hn]
  have e2 : List.replicate n ' ' ++ k :: (ks ++ path ++ ['"'])
      = (List.replicate n ' ' ++ k :: ks) ++ (path ++ ['"']) := by simp
  rw [e2]
  apply clean_tail _ _ _ hq hh
  intro x hx
  rcases List.mem_append.1 hx with h | h
  · rw [List.eq_of_mem_replicate h]; decide
  · exact hks x h

theorem plainPath_iff (p : GoString) :
    plainPath p = true ↔
      ('"' ∉ p ∧ ' ' ∉ p ∧ '\n' ∉ p ∧ ')' ∉ p) ∧ Contains p "/*".toList = false ∧
        Contains p "//".toList = false ∧ Contains p "import (".toList = false ∧
        p.head? ≠ some '_' := by
  unfold plainPath
  simp [and_assoc]

theorem plainPath_head (p : GoString) (h : plainPath p = true) :
    ∀ x, p.head? = some x → x ∉ "_ \"".toList := by
  obtain ⟨⟨h1, h2, _, _⟩, _, _, _, h5⟩ := (plainPath_iff p).1 h
  intro x hx
  cases p with
  | nil => simp at hx
  | cons y ys =>
    simp only [List.head?_cons, Option.some.injEq] at hx
    simp only [List.head?_cons, ne_eq, Option.some.injEq] at h5
    subst hx
    intro e
    have e2 : y = '_' ∨ y = ' ' ∨ y = '"' := by simpa using e
    rcases e2 with e2 | e2 | e2
    · exact h5 e2
    · exact h2 (by simp [e2])
    · exact h1 (by simp [e2])

/-- The patterns that the scan looks for, on a line made of indentation,
underscores and quotes, then a plain path and the closing quote. -/
theorem line_patterns (w path : GoString) (hw : ∀ x ∈ w, x ∈ " \t_\"".toList)
    (hp : plainPath path = true) :
    Contains (w ++ (path ++ ['"'])) "/*".toList = false ∧
    Contains (w ++ (path ++ ['"'])) "import (".toList = false ∧
    Contains (w ++ (path ++ ['"'])) ")".toList = false ∧
    Contains (w ++ (path ++ ['"'])) "//".toList = false ∧
    Contains (w ++ (path ++ ['"'])) "import \"".toList = false ∧
    Contains (w ++ (path ++ ['"'])) "\"".toList = true := by
  obtain ⟨⟨h1, h2, _, h4⟩, h5, h6, h7, _⟩ := (plainPath_iff path).1 hp
  have nw : ∀ ch : Char, ch ∉ " \t_\"".toList → ch ∉ w := fun ch hch e => hch (hw ch e)
  refine ⟨?_, ?_, ?_, ?_, ?_, ?_⟩
  · rw [show "/*".toList = '/' :: [] ++ ['*'] from rfl] at h5 ⊢
    rw [List.cons_append, contains_append_left _ _ _ _ (nw _ (by decide)),
      ← List.cons_append, contains_concat _ _ _ _ (by decide)]
    exact h5
  · rw [show "import (".toList = 'i' :: "mport ".toList ++ ['('] from rfl] at h7 ⊢
    rw [List.cons_append, contains_append_left _ _ _ _ (nw _ (by decide)),
      ← List.cons_append, contains_concat _ _ _ _ (by decide)]
    exact h7
  · rw [show ")".toList = [')'] from rfl, contains_single]
    simp only [decide_eq_false_iff_not, List.mem_append, not_or]
    exact ⟨nw _ (by decide), h4, by decide⟩
  · rw [show "//".toList = '/' :: [] ++ ['/'] from rfl] at h6 ⊢
    rw [List.cons_append, contains_append_left _ _ _ _ (nw _ (by decide)),
      ← List.cons_append, contains_concat _ _ _ _ (by decide)]
    exact h6
  · rw [show "import \"".toList = 'i' :: "mport \"".toList from rfl,
      contains_append_left _ _ _ _ (nw _ (by decide))]
    rw [Bool.eq_false_iff]
    intro e
    have hsp : ' ' ∈ path ++ ['"'] := mem_of_contains e (by decide)
    rcases List.mem_append.1 hsp with h | h
    · exact h2 h
    · exact absurd h (by decide)
  · rw [show "\"".toList = ['"'] from rfl, contains_single]
    simp

/-- An import line `k…"path"` of a block: its path is handed to the
classifier and, if it is external, to the deduplication. -/
theorem scanLine_import_line (debug : Bool) (st : ScanState) (a b c : Nat) (k : Char)
    (ks path : GoString) (hk : k ≠ ' ') (hks : ∀ x ∈ k :: ks, x ∈ "_ \"".toList)
    (hp : plainPath path = true)
    (hs : st.importsStart = true) (hm : st.multilineComment = false) :
    scanLine debug (indent a b c ++ (k :: ks ++ (path ++ ['"']))) st
      = some (if isExternal path
          then ({ st with packages := addUnique st.packages path }, st.importsEnd)
          else (st, false)) := by
  have hq : '"' ∉ path := ((plainPath_iff path).1 hp).1.1
  have hclean := clean_line a b c k ks path hk hks hq (plainPath_head path hp)
  have hw : ∀ x ∈ indent a b c ++ (k :: ks), x ∈ " \t_\"".toList := by
    intro x hx
    unfold indent at hx
    simp only [List.mem_append, List.mem_replicate] at hx
    rcases hx with (⟨_, h⟩ | ⟨_, h⟩ | ⟨_, h⟩) | h
    · rw [h]; decide
    · rw [h]; decide
    · rw [h]; decide
    · have := hks x h
      have e2 : x = '_' ∨ x = ' ' ∨ x = '"' := by simpa using this
      rcases e2 with e2 | e2 | e2 <;> rw [e2] <;> decide
  have hshape : indent a b c ++ (k :: ks ++ (path ++ ['"']))
      = (indent a b c ++ (k :: ks)) ++ (path ++ ['"']) := by simp
  obtain ⟨p1, p2, p3, p4, p5, p6⟩ := line_patterns _ path hw hp
  rw [← hshape] at p1 p2 p3 p4 p5 p6
  have hne : Trim (indent a b c ++ (k :: ks ++ (path ++ ['"']))) " ".toList ≠ [] := by
    rw [hshape, ← List.append_assoc]
    exact trim_concat_ne_nil _ _ _ (by decide)
  unfold scanLine oneLineAndMagic
  simp only [p1, p2, p3, p4, p5, p6, hs, hm, hne, classify_eq, hclean, Bool.false_eq_true,
    Bool.and_false, Bool.false_and, Bool.not_true, Bool.not_false, if_false, if_true, ne_eq,
    not_false_eq_true]

theorem scanLine_comment (debug : Bool) (st : ScanState) (text : GoString)
    (hw : (BlockLine.comment text).wellFormed = true)
    (hs : st.importsStart = true) (hm : st.multilineComment = false) :
    scanLine debug text st = some (st, false) := by
  simp only [BlockLine.wellFormed, Bool.and_eq_true, Bool.not_eq_true'] at hw
  obtain ⟨⟨⟨h1, h2⟩, h3⟩, _⟩ := hw
  have h4 : Contains text ")".toList = false := by
    rw [show ")".toList = [')'] from rfl, contains_single]
    simpa using h3
  unfold scanLine
  by_cases h5 : Contains text "import (".toList = true
  · simp only [h2, hm, h5, Bool.false_eq_true, Bool.and_false, Bool.false_and, Bool.and_true,
        Bool.true_and, Bool.not_true, Bool.not_false, if_false, if_true, ne_eq, not_true_eq_false,
        not_false_eq_true]
    cases st
    simp_all
  · simp only [h2, hm, h5, hs, h4, h1, Bool.false_eq_true, Bool.and_false, Bool.false_and,
        Bool.and_true, Bool.true_and, Bool.not_true, Bool.not_false, if_false, if_true, ne_eq,
        not_true_eq_false, not_false_eq_true]

theorem scanLine_open (debug : Bool) (st : ScanState) (hm : st.multilineComment = false) :
    scanLine debug "import (".toList st = some ({ st with importsStart := true }, false) := by
  have h1 : Contains "import (".toList "/*".toList = false := by decide
  have h2 : Contains "import (".toList "import (".toList = true := by decide
  unfold scanLine
  simp only [h1, h2, hm, Bool.false_eq_true, Bool.and_false, Bool.false_and, Bool.and_true,
    Bool.true_and, Bool.not_true, Bool.not_false, if_false, if_true, ne_eq, not_true_eq_false,
    not_false_eq_true]

theorem scanLine_close (debug : Bool) (st : ScanState)
    (hs : st.importsStart = true) (hm : st.multilineComment = false) :
    scanLine debug ")".toList st
      = some (if debug then { st with importsStart := false, importsEnd := true } else st,
          false) := by
  have h1 : Contains ")".toList "/*".toList = false := by decide
  have h2 : Contains ")".toList "import (".toList = false := by decide
  have h3 : Contains ")".toList ")".toList = true := by decide
  have h4 : Contains ")".toList "//".toList = false := by decide
  have h5 : Contains ")".toList "\"".toList = false := by decide
  unfold scanLine
  cases debug <;> simp only [h1, h2, h3, h4, h5, hm, hs, Bool.false_eq_true, Bool.and_false,
    Bool.false_and, Bool.and_true, Bool.true_and, Bool.not_true, Bool.not_false, if_false,
    if_true, ne_eq, not_true_eq_false, not_false_eq_true]

/-- Outside an import block, a line that imports nothing external adds no
package and enters no block; it can only end the scan of the file. -/
theorem oneLineAndMagic_plain (st : ScanState) (l : GoString)
    (h2 : Contains l "import \"".toList = false ∨ isExternal (cleanPackageName l) = false) :
    oneLineAndMagic l [] st = some (st, st.importsEnd) ∨ oneLineAndMagic l [] st = some (st,
      false) := by
  unfold oneLineAndMagic
  by_cases c : Contains l "import \"".toList = true
  · have hx : isExternal (cleanPackageName l) = false := by
      rcases h2 with h | h
      · rw [h] at c; exact absurd c (by decide)
      · exact h
    obtain ⟨x, hx1⟩ := split_second l ' ' (mem_of_contains c (by decide))
    rw [if_pos c, hx1]
    by_cases hx0 : x = []
    · exact Or.inl (by simp only [hx0, ne_eq, not_true_eq_false, if_false])
    · exact Or.inr (by
        simp only [hx0, ne_eq, not_false_eq_true, if_true, classify_eq, hx, Bool.false_eq_true,
          if_false])
  · rw [if_neg c]
    exact Or.inl (by simp only [ne_eq, not_true_eq_false, if_false])

theorem plainLine_iff (l : GoString) :
    plainLine l = true ↔ Contains l "import (".toList = false ∧
      (Contains l "import \"".toList = false ∨ isExternal (cleanPackageName l) = false) ∧
      '\n' ∉ l := by
  simp [plainLine, and_assoc]

/-- A quiet line before the import block leaves the state as it is. -/
theorem scanLine_quiet (debug : Bool) (st : ScanState) (l : GoString)
    (hq : quietLine l = true) (hs : st.importsStart = false) (he : st.importsEnd = false)
    (hm : st.multilineComment = false) :
    scanLine debug l st = some (st, false) := by
  simp only [quietLine, Bool.and_eq_true, Bool.not_eq_true'] at hq
  obtain ⟨hp, h3⟩ := hq
  obtain ⟨h1, h2, _⟩ := (plainLine_iff l).1 hp
  unfold scanLine
  simp only [h1, h3, hs, hm, Bool.false_eq_true, Bool.and_false, Bool.false_and, Bool.and_true,
    Bool.true_and, Bool.not_true, Bool.not_false, if_false, if_true, ne_eq, not_true_eq_false,
    not_false_eq_true]
  rcases oneLineAndMagic_plain st l h2 with h | h
  · rw [h, he]
  · exact h

/-- Outside an import block a line that imports nothing external adds no
package and enters no block. -/
theorem scanLine_plain (debug : Bool) (st : ScanState) (l : GoString)
    (hp : plainLine l = true) (hs : st.importsStart = false) :
    ∃ st1 b, scanLine debug l st = some (st1, b) ∧ st1.packages = st.packages ∧
      st1.importsStart = false := by
  obtain ⟨h1, h2, _⟩ := (plainLine_iff l).1 hp
  unfold scanLine
  by_cases c1 : Contains l "/*".toList = true
  · exact ⟨{ st with multilineComment := true }, false, by rw [if_pos c1], rfl, hs⟩
  rw [if_neg c1]
  by_cases c2 : (Contains l "*/".toList && st.multilineComment) = true
  · exact ⟨{ st with multilineComment := false }, false, by rw [if_pos c2], rfl, hs⟩
  rw [if_neg c2]
  by_cases c3 : (!Contains l "*/".toList && st.multilineComment) = true
  · exact ⟨st, false, by rw [if_pos c3], rfl, hs⟩
  rw [if_neg c3]
  simp only [h1, hs, Bool.false_eq_true, Bool.and_false, Bool.false_and, Bool.and_true,
    Bool.true_and, Bool.not_true, Bool.not_false, if_false, if_true, ne_eq, not_true_eq_false,
    not_false_eq_true]
  rcases oneLineAndMagic_plain st l h2 with h | h
  · exact ⟨st, st.importsEnd, h, rfl, hs⟩
  · exact ⟨st, false, h, rfl, hs⟩

theorem scanLines_plain (debug : Bool) (lines : List GoString) (st : ScanState)
    (hp : ∀ l ∈ lines, plainLine l = true) (hs : st.importsStart = false) :
    ∃ st1, scanLines debug lines st = some st1 ∧ st1.packages = st.packages := by
  induction lines generalizing st with
  | nil => exact ⟨st, rfl, rfl⟩
  | cons l ls ih =>
    obtain ⟨st1, b, h1, h2, h3⟩ := scanLine_plain debug st l (hp l (List.mem_cons_self _ _)) hs
    cases b with
    | true => exact ⟨st1, by simp [scanLines, h1], h2⟩
    | false =>
      obtain ⟨st2, h4, h5⟩ := ih st1 (fun x hx => hp x (List.mem_cons_of_mem _ hx)) h3
      exact ⟨st2, by simp [scanLines, h1, h4], by rw [h5, h2]⟩

theorem scanLines_header (debug : Bool) (header more : List GoString) (packages : List GoString)
    (hq : ∀ l ∈ header, quietLine l = true) :
    scanLines debug (header ++ more) (fileStart packages)
      = scanLines debug more (fileStart packages) := by
  induction header with
  | nil => rfl
  | cons l ls ih =>
    rw [List.cons_append, scanLines,
      scanLine_quiet debug _ l (hq l (List.mem_cons_self _ _)) rfl rfl rfl]
    exact ih (fun x hx => hq x (List.mem_cons_of_mem _ hx))

/-- The lines of a block, scanned inside the block: the external paths of the
quoted lines go through the deduplication, in line order. -/
theorem scanLines_body (debug : Bool) (body : List BlockLine) (more : List GoString)
    (st : ScanState) (hw : ∀ l ∈ body, l.wellFormed = true)
    (hs : st.importsStart = true) (he : st.importsEnd = false)
    (hm : st.multilineComment = false) :
    scanLines debug (body.map BlockLine.text ++ more) st
      = scanLines debug more { st with
          packages := ((blockPaths body).filter isExternal).foldl addUnique st.packages } := by
  induction body generalizing st with
  | nil => rfl
  | cons l ls ih =>
    have hls : ∀ x ∈ ls, x.wellFormed = true := fun x hx => hw x (List.mem_cons_of_mem _ hx)
    have hl := hw l (List.mem_cons_self _ _)
    cases l with
    | comment text =>
      rw [List.map_cons, List.cons_append, scanLines, BlockLine.text,
        scanLine_comment debug st text hl hs hm]
      exact ih st hls hs he hm
    | quoted a b c path =>
      have step := scanLine_import_line debug st a b c '"' [] path (by decide) (by decide) hl hs hm
      rw [List.map_cons, List.cons_append, scanLines]
      show (match scanLine debug (indent a b c ++ ('"' :: [] ++ (path ++ ['"']))) st with
        | none => none
        | some (st1, true) => some st1
        | some (st1, false) => scanLines debug (List.map BlockLine.text ls ++ more) st1) = _
      rw [step]
      by_cases hx : isExternal path = true
      · simp only [hx, if_true, he, blockPaths, List.filter_cons_of_pos, List.foldl_cons]
        exact ih _ hls hs rfl hm
      · simp only [hx, Bool.false_eq_true, if_false, blockPaths, List.filter_cons_of_neg,
              not_false_eq_true]
        exact ih _ hls hs he hm

/-! ## First-occurrence deduplication -/

theorem dedupFirst_filter (p : GoString → Bool) (l : List GoString) :
    dedupFirst (l.filter p) = (dedupFirst l).filter p := by
  induction l with
  | nil => rfl
  | cons x xs ih =>
    by_cases hx : p x = true
    · rw [List.filter_cons_of_pos hx, dedupFirst, dedupFirst, List.filter_cons_of_pos hx, ih,
        List.filter_filter, List.filter_filter]
      congr 1
      apply List.filter_congr
      intro y _
      exact Bool.and_comm _ _
    · rw [List.filter_cons_of_neg hx, dedupFirst, List.filter_cons_of_neg hx, ih,
        List.filter_filter]
      apply List.filter_congr
      intro y _
      by_cases hy : p y = true
      · have : y ≠ x := fun e => hx (e ▸ hy)
        simp [hy, this]
      · simp [hy]

theorem mem_dedupFirst (l : List GoString) (x : GoString) : x ∈ dedupFirst l ↔ x ∈ l := by
  induction l with
  | nil => simp [dedupFirst]
  | cons y ys ih =>
    rw [dedupFirst, List.mem_cons, List.mem_cons, List.mem_filter, ih]
    by_cases h : x = y
    · simp [h]
    · simp [h]

theorem dedupFirst_nodup (l : List GoString) : (dedupFirst l).Nodup := by
  induction l with
  | nil => simp [dedupFirst]
  | cons y ys ih =>
    rw [dedupFirst, List.nodup_cons]
    exact ⟨by simp [List.mem_filter], ih.filter _⟩

/-- The deduplication loop of the scan computes the first-occurrence
deduplication. -/
theorem foldl_addUnique (l acc : List GoString) :
    l.foldl addUnique acc = acc ++ dedupFirst (l.filter (fun y => decide (y ∉ acc))) := by
  induction l generalizing acc with
  | nil => simp [dedupFirst]
  | cons x xs ih =>
    rw [List.foldl_cons, ih, addUnique_eq_add]
    unfold PackageSet.Add
    by_cases hx : x ∈ acc
    · rw [if_pos hx, List.filter_cons_of_neg (by simpa using hx)]
    · rw [if_neg hx, List.filter_cons_of_pos (by simpa using hx), dedupFirst,
        ← dedupFirst_filter, List.filter_filter, List.append_assoc, List.singleton_append]
      congr 2
      congr 1
      apply List.filter_congr
      intro y _
      by_cases hy : y = x <;> simp [hy, hx]

theorem foldl_addUnique_nil (l : List GoString) : l.foldl addUnique [] = dedupFirst l := by
  rw [foldl_addUnique]
  simp

/-! ## Whole files -/

theorem indent_no_newline (a b c : Nat) : '\n' ∉ indent a b c := by
  unfold indent
  simp only [List.mem_append, List.mem_replicate, not_or, not_and]
  exact ⟨fun _ => by decide, fun _ => by decide, fun _ => by decide⟩

theorem blockLine_no_newline (l : BlockLine) (hw : l.wellFormed = true) : '\n' ∉ l.text := by
  cases l with
  | comment text =>
    simp only [BlockLine.wellFormed, Bool.and_eq_true, Bool.not_eq_true'] at hw
    simpa [BlockLine.text] using hw.2
  | quoted a b c path =>
    obtain ⟨⟨_, _, h3, _⟩, _⟩ := (plainPath_iff path).1 hw
    simp only [BlockLine.text, List.mem_append, List.mem_cons, not_or]
    exact ⟨indent_no_newline a b c, by decide, h3, by decide, by simp⟩

theorem plainLine_no_newline (l : GoString) (h : plainLine l = true) : '\n' ∉ l :=
  ((plainLine_iff l).1 h).2.2

theorem sourceFile_wellFormed_iff (f : SourceFile) :
    f.wellFormed = true ↔ (∀ l ∈ f.header, quietLine l = true) ∧
      (∀ l ∈ f.body, l.wellFormed = true) ∧ (∀ l ∈ f.rest, plainLine l = true) := by
  simp [SourceFile.wellFormed, and_assoc]

theorem sourceFile_no_newline (f : SourceFile) (hw : f.wellFormed = true) :
    ∀ l ∈ f.lines, '\n' ∉ l := by
  obtain ⟨h1, h2, h3⟩ := (sourceFile_wellFormed_iff f).1 hw
  intro l hl
  simp only [SourceFile.lines, blockLines, List.mem_append, List.mem_cons, List.mem_map,
    List.mem_singleton, List.not_mem_nil, or_false] at hl
  rcases hl with h | (h | (⟨x, hx, rfl⟩ | h)) | h
  · have := h1 l h
    simp only [quietLine, Bool.and_eq_true] at this
    exact plainLine_no_newline l this.1
  · rw [h]; decide
  · exact blockLine_no_newline x (h2 x hx)
  · rw [h]; decide
  · exact plainLine_no_newline l (h3 l h)

/-- Inside an import block an empty line changes nothing. -/
theorem scanLines_empty (debug : Bool) (lines : List GoString) (st : ScanState)
    (hl : ∀ l ∈ lines, l = []) (hs : st.importsStart = true)
    (hm : st.multilineComment = false) : scanLines debug lines st = some st := by
  induction lines with
  | nil => rfl
  | cons l ls ih =>
    have h1 : Contains [] "/*".toList = false := by decide
    have h2 : Contains [] "import (".toList = false := by decide
    have h3 : Contains [] ")".toList = false := by decide
    have h4 : Contains [] "//".toList = false := by decide
    have h5 : Contains [] "\"".toList = false := by decide
    have step : scanLine debug [] st = some (st, false) := by
      unfold scanLine
      simp only [h1, h2, h3, h4, h5, hs, hm, Bool.false_eq_true, Bool.and_false,
        Bool.false_and, Bool.not_false, if_false, if_true]
    rw [hl l (List.mem_cons_self _ _), scanLines, step]
    exact ih (fun x hx => hl x (List.mem_cons_of_mem _ hx))

theorem endsAtBlock_iff (f : SourceFile) :
    f.endsAtBlock = true ↔ ∀ l ∈ f.rest, l = [] := by
  simp [SourceFile.endsAtBlock, List.isEmpty_iff]

/-- The scan of one well-formed source file, when the block is closed in
debug mode or only empty lines follow the block: the external paths of the
block go through the deduplication. -/
theorem scanLines_sourceFile (debug : Bool) (f : SourceFile) (packages : List GoString)
    (hw : f.wellFormed = true) (hd : debug = true ∨ f.endsAtBlock = true) :
    ∃ st, scanLines debug f.lines (fileStart packages) = some st ∧
      st.packages = ((blockPaths f.body).filter isExternal).foldl addUnique packages := by
  obtain ⟨h1, h2, h3⟩ := (sourceFile_wellFormed_iff f).1 hw
  have e : f.lines = f.header ++
      ("import (".toList :: (f.body.map BlockLine.text ++ (")".toList :: f.rest))) := by
    simp [SourceFile.lines, blockLines]
  rw [e, scanLines_header debug _ _ _ h1, scanLines, scanLine_open debug _ rfl]
  simp only []
  rw [scanLines_body debug f.body _ _ h2 rfl rfl rfl, scanLines, scanLine_close debug _ rfl rfl]
  simp only []
  cases debug with
  | true =>
    simp only [if_true]
    have key : ∀ st0 : ScanState, st0.importsStart = false →
        ∃ st, scanLines true f.rest st0 = some st ∧ st.packages = st0.packages :=
      fun st0 h0 => scanLines_plain true f.rest st0 h3 h0
    exact key _ rfl
  | false =>
    have he : ∀ l ∈ f.rest, l = [] :=
      (endsAtBlock_iff f).1 (hd.resolve_left (by decide))
    simp only [Bool.false_eq_true, if_false]
    rw [scanLines_empty false f.rest _ he rfl rfl]
    exact ⟨_, rfl, rfl⟩

/-- The scan of a list of well-formed source files. -/
theorem parseFiles_sourceFiles (debug : Bool) (files : List SourceFile)
    (packages : List GoString) (hw : ∀ f ∈ files, f.wellFormed = true)
    (hd : debug = true ∨ ∀ f ∈ files, f.endsAtBlock = true) :
    parseFiles debug (files.map SourceFile.text) packages
      = some (((pathsOf (files.map SourceFile.body)).filter isExternal).foldl
          addUnique packages) := by
  induction files generalizing packages with
  | nil => rfl
  | cons f fs ih =>
    have hf := hw f (List.mem_cons_self _ _)
    have hne : f.lines ≠ [] := by
      simp [SourceFile.lines, blockLines]
    have hdf : debug = true ∨ f.endsAtBlock = true :=
      hd.imp id (fun h => h f (List.mem_cons_self _ _))
    obtain ⟨st, hs, hp⟩ := scanLines_sourceFile debug f packages hf hdf
    rw [List.map_cons, parseFiles, SourceFile.text,
      split_joinLines _ hne (sourceFile_no_newline f hf), hs]
    simp only []
    rw [ih st.packages (fun x hx => hw x (List.mem_cons_of_mem _ hx))
      (hd.imp id (fun h x hx => h x (List.mem_cons_of_mem _ hx))), hp]
    simp [pathsOf, List.filter_append, List.foldl_append]

theorem blockFile_eq (body : List BlockLine) :
    blockFile body = SourceFile.text { header := [], body := body, rest := [] } := by
  simp [blockFile, SourceFile.text, SourceFile.lines]

/-- The scan of a list of files that each consist of one well-formed import
block, for either value of the debug flag. -/
theorem parseFiles_blockFiles (debug : Bool) (blocks : List (List BlockLine))
    (hw : ∀ body ∈ blocks, ∀ l ∈ body, l.wellFormed = true) :
    parseFilesForPackages debug (blocks.map blockFile)
      = some (dedupFirst ((pathsOf blocks).filter isExternal)) := by
  have h := parseFiles_sourceFiles debug
    (blocks.map (fun body => { header := [], body := body, rest := [] })) []
    (by
      intro f hf
      obtain ⟨body, hb, rfl⟩ := List.mem_map.1 hf
      rw [sourceFile_wellFormed_iff]
      exact ⟨by simp, hw body hb, by simp⟩)
    (Or.inr (by
      intro f hf
      obtain ⟨body, _, rfl⟩ := List.mem_map.1 hf
      rfl))
  rw [foldl_addUnique_nil] at h
  simp only [List.map_map] at h
  have e1 : (SourceFile.text ∘ fun body => { header := [], body := body, rest := [] })
      = blockFile := by
    funext body; exact (blockFile_eq body).symm
  have e2 : (SourceFile.body ∘ fun body => ({ header := [], body := body, rest := [] } :
    SourceFile))
      = id := by
    funext body; rfl
  rw [e1, e2, List.map_id] at h
  exact h

/-! ## One-line imports of builtin paths -/

theorem clean_singleImport (path : GoString) (hq : '"' ∉ path) (hne : path ≠ []) :
    cleanPackageName (singleImport path) = "import \"".toList ++ path := by
  obtain ⟨P, z, rfl⟩ : ∃ P z, path = P ++ [z] := by
    rcases List.eq_nil_or_concat path with h | ⟨P, z, h⟩
    · exact absurd h hne
    · exact ⟨P, z, by rw [h, List.concat_eq_append]⟩
  have hz : z ≠ '"' := fun e => hq (by simp [e])
  have s1 : singleImport (P ++ [z]) = 'i' :: ("mport \"".toList ++ (P ++ [z])) ++ ['"'] := by
    simp [singleImport]
  have s2 : 'i' :: ("mport \"".toList ++ (P ++ [z])) = 'i' :: ("mport \"".toList ++ P) ++ [z] := by
    simp
  unfold cleanPackageName Trim
  simp only []
  rw [s1, trimRight_concat_neg _ _ _ (by decide), List.cons_append,
    trimLeft_cons_neg _ _ _ (by decide), ← List.cons_append,
    trimRight_concat_neg _ _ _ (by decide), List.cons_append,
    trimLeft_cons_neg _ _ _ (by decide), ← List.cons_append,
    trimRight_concat_pos _ _ _ (by decide), s2,
    trimRight_concat_neg _ _ _ (by simpa using hz), List.cons_append,
    trimLeft_cons_neg _ _ _ (by decide), trimLeft_cons_neg _ _ _ (by decide)]
  simp

/-- The one-line import of a plain builtin path is a quiet line: the scan
classifies its cleaned text, `import "path`, as builtin. -/
theorem singleImport_quiet (path : GoString) (hp : plainPath path = true)
    (hb : isExternal path = false) : quietLine (singleImport path) = true := by
  obtain ⟨⟨h1, _, h3, _⟩, h5, _, h7, _⟩ := (plainPath_iff path).1 hp
  have hclean : isExternal (cleanPackageName (singleImport path)) = false := by
    by_cases hne : path = []
    · subst hne; decide
    · rw [clean_singleImport path h1 hne]
      unfold isExternal firstSegment at hb ⊢
      rw [List.takeWhile_append_of_pos (by decide)]
      rw [Bool.eq_false_iff] at hb ⊢
      intro e
      apply hb
      simp only [List.contains, List.elem_eq_mem, decide_eq_true_eq, List.mem_append] at e ⊢
      rcases e with e | e
      · exact absurd e (by decide)
      · exact e
  have c1 : Contains (singleImport path) "/*".toList = false := by
    unfold singleImport
    rw [show "/*".toList = '/' :: [] ++ ['*'] from rfl] at h5 ⊢
    rw [List.cons_append, contains_append_left _ _ _ _ (by decide), ← List.cons_append,
      contains_concat _ _ _ _ (by decide)]
    exact h5
  have c2 : Contains (singleImport path) "import (".toList = false := by
    have e : singleImport path = 'i' :: ("mport \"".toList ++ (path ++ ['"'])) := rfl
    rw [e, Contains]
    have p1 : List.isPrefixOf "import (".toList ('i' :: ("mport \"".toList ++ (path ++ ['"'])))
        = false := by
      simp [List.isPrefixOf]
    rw [p1, Bool.false_or]
    rw [show "import (".toList = 'i' :: "mport ".toList ++ ['('] from rfl] at h7 ⊢
    rw [List.cons_append, contains_append_left _ _ _ _ (by decide), ← List.cons_append,
      contains_concat _ _ _ _ (by decide)]
    exact h7
  have c3 : '\n' ∉ singleImport path := by
    unfold singleImport
    simp only [List.mem_append, not_or]
    exact ⟨by decide, h3, by decide⟩
  unfold quietLine
  rw [(plainLine_iff _).2 ⟨c2, Or.inr hclean, c3⟩, c1]
  rfl

theorem mem_pathsOf (blocks : List (List BlockLine)) (p : GoString) :
    p ∈ pathsOf blocks ↔ ∃ body ∈ blocks, p ∈ blockPaths body := by
  induction blocks with
  | nil => simp [pathsOf]
  | cons b bs ih => simp [pathsOf, ih]

/-! ## The claims -/

/-- C1, the code at the input of the claim: for the one-line file
`import "github.com/solo/pkg"` the scan returns the whole line without its
closing quote, `import "github.com/solo/pkg`, and not the bare path: the
candidate is recomputed from the line, so the keyword and the opening quote
stay. -/
theorem single_line_import_keeps_keyword (debug : Bool) :
    parseFilesForPackages debug ["import \"github.com/solo/pkg\"".toList]
      = some ["import \"github.com/solo/pkg".toList] := by
  cases debug <;> decide

/-- C2, the code at a failing input: on a file with an import block followed
by code the scan with `debug = true` finds no package, and the scan with
`debug = false` returns the code line `fmt.Println("hi")`. -/
theorem debug_flag_changes_result :
    parseFilesForPackages true
        ["package main\n\nimport (\n\t\"fmt\"\n)\n\nfunc main()
          \x7b\n\tfmt.Println(\"hi\")\n\x7d\n".toList]
      = some [] ∧
    parseFilesForPackages false
        ["package main\n\nimport (\n\t\"fmt\"\n)\n\nfunc main()
          \x7b\n\tfmt.Println(\"hi\")\n\x7d\n".toList]
      = some ["fmt.Println(\"hi\")".toList] := by
  constructor <;> decide

/-- C5, the code at two failing inputs: with `debug = false` the line `)` does
not end the scan, and the later line `const home = "example.org/home"` gives
an entry; with `debug = true` the line after `)` is still scanned, and the
one-line import there gives an entry. -/
theorem scan_goes_on_after_closing_line :
    parseFilesForPackages false
        ["import (\n\t\"os\"\n)\n\nconst home = \"example.org/home\"".toList]
      = some ["const home = \"example.org/home".toList] ∧
    parseFilesForPackages true
        ["import (\n\t\"os\"\n)\nimport \"github.com/x/y\"".toList]
      = some ["import \"github.com/x/y".toList] := by
  constructor <;> decide

/-- C6, the code at the failing input: the file `vendor/x/y.go`, as the walk
from the default root `.` names it, is appended to the file list; the
same file under a root with a directory before `vendor` is skipped. -/
theorem vendor_at_root_is_collected (p : Parser) :
    filepathWalkHandler p "vendor/x/y.go".toList (some false) none
        = some ({ files := p.files ++ ["vendor/x/y.go".toList] }, none) ∧
    filepathWalkHandler p "src/vendor/x/y.go".toList (some false) none = some (p, none) := by
  constructor <;> rfl

/-- C3, counterexample: in the block `import (`, a tab and `// see /* below`,
a tab and `"github.com/foo/bar"`, `)` every line is of a kind the claim allows (the
second contains `//`), and the quoted path is external; the scan returns
the empty list for both values of the debug flag, because the `/*` of the
comment line starts a block comment that is never closed. -/
theorem comment_line_with_block_comment_opener :
    blockFile [.comment "\t// see /* below".toList, .quoted 0 1 0 "github.com/foo/bar".toList]
      = "import (\n\t// see /* below\n\t\"github.com/foo/bar\"\n)".toList ∧
    dedupFirst (List.filter isExternal
        (blockPaths [.comment "\t// see /* below".toList,
          .quoted 0 1 0 "github.com/foo/bar".toList]))
      = ["github.com/foo/bar".toList] ∧
    parseFilesForPackages true
        ["import (\n\t// see /* below\n\t\"github.com/foo/bar\"\n)".toList] = some [] ∧
    parseFilesForPackages false
        ["import (\n\t// see /* below\n\t\"github.com/foo/bar\"\n)".toList] = some [] := by
  refine ⟨?_, ?_, ?_, ?_⟩ <;> decide

/-- C3, as amended: for a file made of `import (`, well-formed block lines
and a final `)`, the scan returns, for either value of the debug flag, the
first-occurrence deduplication of the external quoted paths, in line order.
A quoted line is well formed when it is indented by spaces, then tabs, then
spaces and its path is plain; a comment line when it contains `//` and
neither `/*` nor `)`. -/
theorem import_block_result (debug : Bool) (body : List BlockLine)
    (hw : ∀ l ∈ body, l.wellFormed = true) :
    parseFilesForPackages debug [blockFile body]
      = some (dedupFirst ((blockPaths body).filter isExternal)) := by
  have h := parseFiles_blockFiles debug [body] (by
    intro b hb
    rw [List.mem_singleton.1 hb]
    exact hw)
  simpa [pathsOf] using h

/-- C3, the amended claim at the block of the specification: `import (`,
`    "fmt"`, `    "github.com/foo/bar"`, `    // "github.com/should/be/skipped"`,
`    "github.com/baz/qux"`, `)` gives the two external paths, for both values
of the debug flag. -/
theorem import_block_result_witness :
    blockFile [.quoted 4 0 0 "fmt".toList, .quoted 4 0 0 "github.com/foo/bar".toList,
        .comment "    // \"github.com/should/be/skipped\"".toList,
        .quoted 4 0 0 "github.com/baz/qux".toList]
      = ("import (\n    \"fmt\"\n    \"github.com/foo/bar\"\n" ++
          "    // \"github.com/should/be/skipped\"\n    \"github.com/baz/qux\"\n)").toList ∧
    parseFilesForPackages true
        [blockFile [.quoted 4 0 0 "fmt".toList, .quoted 4 0 0 "github.com/foo/bar".toList,
          .comment "    // \"github.com/should/be/skipped\"".toList,
          .quoted 4 0 0 "github.com/baz/qux".toList]]
      = some ["github.com/foo/bar".toList, "github.com/baz/qux".toList] ∧
    parseFilesForPackages false
        [blockFile [.quoted 4 0 0 "fmt".toList, .quoted 4 0 0 "github.com/foo/bar".toList,
          .comment "    // \"github.com/should/be/skipped\"".toList,
          .quoted 4 0 0 "github.com/baz/qux".toList]]
      = some ["github.com/foo/bar".toList, "github.com/baz/qux".toList] :=
  ⟨by decide,
    (import_block_result true _ (by decide)).trans (by decide),
    (import_block_result false _ (by decide)).trans (by decide)⟩

/-- C4, counterexample: the block `import (`, a tab and `. "fmt"`, `)`
declares one import, of the builtin path `fmt`; the scan returns the entry
`. "fmt`, for both values of the debug flag: the dot of the import name is
taken for the dot of a host name. -/
theorem dot_import_of_builtin_path :
    isExternal "fmt".toList = false ∧
    parseFilesForPackages true ["import (\n\t. \"fmt\"\n)".toList]
      = some [". \"fmt".toList] ∧
    parseFilesForPackages false ["import (\n\t. \"fmt\"\n)".toList]
      = some [". \"fmt".toList] := by
  refine ⟨?_, ?_, ?_⟩ <;> decide

/-- C4, as amended: for well-formed source files whose import blocks hold
builtin paths only, the scan returns the empty list, when `debug` is set or
when only empty lines follow the blocks.  In a well-formed source file the lines
before the block are quiet (no `/*`, no `import (`, no import of an external
path), the block lines are well formed, and the lines after the `)` import
nothing external; the one-line import of a plain builtin path is a quiet
line. -/
theorem builtin_imports_give_no_package (debug : Bool) (files : List SourceFile)
    (hw : ∀ f ∈ files, f.wellFormed = true)
    (hb : ∀ f ∈ files, ∀ p ∈ blockPaths f.body, isExternal p = false)
    (hd : debug = true ∨ ∀ f ∈ files, f.endsAtBlock = true) :
    parseFilesForPackages debug (files.map SourceFile.text) = some [] ∧
      ∀ p, plainPath p = true → isExternal p = false → quietLine (singleImport p) = true := by
  refine ⟨?_, singleImport_quiet⟩
  have h := parseFiles_sourceFiles debug files [] hw hd
  have e : (pathsOf (files.map SourceFile.body)).filter isExternal = [] := by
    rw [List.filter_eq_nil_iff]
    intro p hp
    obtain ⟨body, hbody, hpb⟩ := (mem_pathsOf _ p).1 hp
    obtain ⟨f, hf, rfl⟩ := List.mem_map.1 hbody
    rw [hb f hf p hpb]
    decide
  rw [e] at h
  exact h

/-- C4, the amended claim at a file with a one-line import of `os`, a block
that imports `fmt` and `net/http`, and code after the block: with `debug`
set the scan finds no package. -/
theorem builtin_imports_give_no_package_witness :
    SourceFile.text
        { header := ["package main".toList, [], "import \"os\"".toList],
          body := [.quoted 0 1 0 "fmt".toList, .quoted 0 1 0 "net/http".toList],
          rest := [[], "func main() \x7b".toList, "\tfmt.Println(\"hi\")".toList,
            "\x7d".toList, []] }
      = ("package main\n\nimport \"os\"\nimport (\n\t\"fmt\"\n\t\"net/http\"\n)\n\n" ++
          "func main() \x7b\n\tfmt.Println(\"hi\")\n\x7d\n").toList ∧
    parseFilesForPackages true
        [SourceFile.text
          { header := ["package main".toList, [], "import \"os\"".toList],
            body := [.quoted 0 1 0 "fmt".toList, .quoted 0 1 0 "net/http".toList],
            rest := [[], "func main() \x7b".toList, "\tfmt.Println(\"hi\")".toList,
              "\x7d".toList, []] }]
      = some [] :=
  ⟨by decide,
    (builtin_imports_give_no_package true
      [{ header := ["package main".toList, [], "import \"os\"".toList],
         body := [.quoted 0 1 0 "fmt".toList, .quoted 0 1 0 "net/http".toList],
         rest := [[], "func main() \x7b".toList, "\tfmt.Println(\"hi\")".toList,
           "\x7d".toList, []] }]
      (by decide) (by decide) (Or.inl rfl)).1⟩

/-- C7, counterexample: for the block line made of a tab and
`foo "github.com/foo/bar"` the
candidate handed to the classifier is `foo "github.com/foo/bar`, with the
alias and the opening quote, and this is the entry that the scan returns. -/
theorem named_alias_stays_in_candidate :
    cleanPackageName "\tfoo \"github.com/foo/bar\"".toList = "foo \"github.com/foo/bar".toList ∧
    cleanPackageName "\tfoo \"github.com/foo/bar\"".toList ≠ "github.com/foo/bar".toList ∧
    parseFilesForPackages true ["import (\n\tfoo \"github.com/foo/bar\"\n)".toList]
      = some ["foo \"github.com/foo/bar".toList] ∧
    parseFilesForPackages false ["import (\n\tfoo \"github.com/foo/bar\"\n)".toList]
      = some ["foo \"github.com/foo/bar".toList] := by
  refine ⟨?_, ?_, ?_, ?_⟩ <;> decide

/-- C7, as amended: for a line of an import block with the blank identifier,
indentation then `_ "path"` with a plain path, the candidate handed to the
classifier is exactly the path: inside a block and outside a block comment,
the line adds the path if it is external and nothing if it is builtin. -/
theorem blank_identifier_is_stripped (debug : Bool) (st : ScanState) (a b c : Nat)
    (path : GoString) (hp : plainPath path = true)
    (hs : st.importsStart = true) (hm : st.multilineComment = false) :
    cleanPackageName (blankImport a b c path) = path ∧
    scanLine debug (blankImport a b c path) st
      = some (if isExternal path
          then ({ st with packages := PackageSet.Add st.packages path }, st.importsEnd)
          else (st, false)) := by
  have hq : '"' ∉ path := ((plainPath_iff path).1 hp).1.1
  constructor
  · exact clean_line a b c '_' [' ', '"'] path (by decide) (by decide) hq (plainPath_head path hp)
  · rw [← addUnique_eq_add]
    exact scanLine_import_line debug st a b c '_' [' ', '"'] path (by decide) (by decide) hp hs hm

/-- C7, the amended claim at the line made of a tab and
`_ "github.com/foo/bar"`, scanned inside
an import block. -/
theorem blank_identifier_is_stripped_witness :
    blankImport 0 1 0 "github.com/foo/bar".toList = "\t_ \"github.com/foo/bar\"".toList ∧
    cleanPackageName (blankImport 0 1 0 "github.com/foo/bar".toList)
      = "github.com/foo/bar".toList ∧
    scanLine false (blankImport 0 1 0 "github.com/foo/bar".toList)
        { packages := [], importsStart := true, importsEnd := false, multilineComment := false }
      = some ({ packages := ["github.com/foo/bar".toList], importsStart := true,
                importsEnd := false, multilineComment := false }, false) :=
  ⟨by decide,
    (blank_identifier_is_stripped false
      { packages := [], importsStart := true, importsEnd := false, multilineComment := false }
      0 1 0 "github.com/foo/bar".toList (by decide) rfl rfl).1,
    (blank_identifier_is_stripped false
      { packages := [], importsStart := true, importsEnd := false, multilineComment := false }
      0 1 0 "github.com/foo/bar".toList (by decide) rfl rfl).2.trans (by decide)⟩

/-- C8: the deduplication step is `PackageSet.Add`: the classifier hands an
external candidate to it, the list is unchanged if the candidate is already
an element and gets the candidate appended otherwise; and the list returned
by the scan, which exists for every list of file contents, has no two equal
entries. -/
theorem dedup_step_is_package_set_add (debug : Bool) (files : List GoString)
    (line : GoString) (st : ScanState) (packages : List GoString) (c : GoString) :
    classify line st
      = some (if isExternal (cleanPackageName line)
          then ({ st with packages := PackageSet.Add st.packages (cleanPackageName line) },
            st.importsEnd)
          else (st, false)) ∧
    addUnique packages c = (if c ∈ packages then packages else packages ++ [c]) ∧
    ∃ r, parseFilesForPackages debug files = some r ∧ r.Nodup := by
  refine ⟨?_, ?_, ?_⟩
  · rw [classify_eq, addUnique_eq_add]
  · rw [addUnique_eq_add]; rfl
  · obtain ⟨r, hr⟩ := parseFiles_some debug files []
    exact ⟨r, hr, parseFiles_nodup debug files [] r hr List.nodup_nil⟩

/-- C9: for a project whose files each consist of one well-formed grouped import
block, the scan returns, for either value of the debug flag, the
first-occurrence deduplication of the external paths of all blocks (files in
list order, lines in file order): every external path once, and as many
entries as there are distinct external paths. -/
theorem distinct_external_paths_once (debug : Bool) (blocks : List (List BlockLine))
    (hw : ∀ body ∈ blocks, ∀ l ∈ body, l.wellFormed = true) :
    ∃ r, parseFilesForPackages debug (blocks.map blockFile) = some r ∧
      r = dedupFirst ((pathsOf blocks).filter isExternal) ∧
      r.Nodup ∧
      (∀ p, p ∈ r ↔ p ∈ pathsOf blocks ∧ isExternal p = true) ∧
      r.length = ((pathsOf blocks).filter isExternal).toFinset.card := by
  refine ⟨_, parseFiles_blockFiles debug blocks hw, rfl, dedupFirst_nodup _, ?_, ?_⟩
  · intro p
    rw [mem_dedupFirst, List.mem_filter]
  · rw [← List.toFinset_card_of_nodup (dedupFirst_nodup _)]
    congr 1
    exact List.toFinset.ext (fun x => mem_dedupFirst _ x)

/-- C9 at a project of three files with tab-indented blocks: three distinct
external paths, two repeated imports of them and one builtin import give
three entries, in the order of first discovery. -/
theorem distinct_external_paths_once_witness :
    List.map blockFile
        [[.quoted 0 1 0 "fmt".toList, .quoted 0 1 0 "github.com/a/one".toList,
          .quoted 0 1 0 "gopkg.in/yaml.v2".toList],
         [.quoted 0 1 0 "gopkg.in/yaml.v2".toList, .quoted 0 1 0 "github.com/b/two".toList],
         [.quoted 0 1 0 "github.com/a/one".toList]]
      = ["import (\n\t\"fmt\"\n\t\"github.com/a/one\"\n\t\"gopkg.in/yaml.v2\"\n)".toList,
         "import (\n\t\"gopkg.in/yaml.v2\"\n\t\"github.com/b/two\"\n)".toList,
         "import (\n\t\"github.com/a/one\"\n)".toList] ∧
    ∃ r, parseFilesForPackages false
          (List.map blockFile
            [[.quoted 0 1 0 "fmt".toList, .quoted 0 1 0 "github.com/a/one".toList,
              .quoted 0 1 0 "gopkg.in/yaml.v2".toList],
             [.quoted 0 1 0 "gopkg.in/yaml.v2".toList, .quoted 0 1 0 "github.com/b/two".toList],
             [.quoted 0 1 0 "github.com/a/one".toList]]) = some r ∧
      r = ["github.com/a/one".toList, "gopkg.in/yaml.v2".toList, "github.com/b/two".toList] ∧
      r.length = 3 := by
  refine ⟨by decide, ?_⟩
  obtain ⟨r, h1, h2, _, _, _⟩ := distinct_external_paths_once false
    [[.quoted 0 1 0 "fmt".toList, .quoted 0 1 0 "github.com/a/one".toList,
      .quoted 0 1 0 "gopkg.in/yaml.v2".toList],
     [.quoted 0 1 0 "gopkg.in/yaml.v2".toList, .quoted 0 1 0 "github.com/b/two".toList],
     [.quoted 0 1 0 "github.com/a/one".toList]] (by decide)
  have h3 : r = ["github.com/a/one".toList, "gopkg.in/yaml.v2".toList,
      "github.com/b/two".toList] := h2.trans (by decide)
  exact ⟨r, h1, h3, by rw [h3]; rfl⟩

/-- C10: a line that contains `/*` puts the scan into the in-comment state
and changes nothing else, whatever else is on the line; a line scanned in the
in-comment state changes at most the in-comment flag, so it adds no entry;
and the in-comment state is only left by a line that contains `*/` and no
`/*`. -/
theorem block_comment_masks_content (debug : Bool) (line : GoString) (st : ScanState) :
    (Contains line "/*".toList = true →
      scanLine debug line st = some ({ st with multilineComment := true }, false)) ∧
    (st.multilineComment = true →
      ∃ m, scanLine debug line st = some ({ st with multilineComment := m }, false)) ∧
    (st.multilineComment = true → ∀ st1 b, scanLine debug line st = some (st1, b) →
      st1.multilineComment = false →
      Contains line "*/".toList = true ∧ Contains line "/*".toList = false) := by
  refine ⟨?_, ?_, ?_⟩
  · intro h
    unfold scanLine
    rw [if_pos h]
  · intro hm
    unfold scanLine
    by_cases c1 : Contains line "/*".toList = true
    · exact ⟨true, by rw [if_pos c1]⟩
    · rw [if_neg c1]
      by_cases c2 : Contains line "*/".toList = true
      · exact ⟨false, by simp only [c2, hm, Bool.and_self, if_true]⟩
      · refine ⟨true, ?_⟩
        simp only [c2, hm, Bool.false_and, Bool.false_eq_true, if_false, Bool.not_false,
          Bool.and_self, if_true]
        cases st
        simp_all
  · intro hm st1 b h hf
    unfold scanLine at h
    by_cases c1 : Contains line "/*".toList = true
    · rw [if_pos c1] at h
      simp only [Option.some.injEq, Prod.mk.injEq] at h
      rw [← h.1] at hf
      exact absurd hf (by simp)
    · rw [if_neg c1] at h
      by_cases c2 : Contains line "*/".toList = true
      · exact ⟨c2, by simpa using c1⟩
      · simp only [c2, hm, Bool.false_and, Bool.false_eq_true, if_false, Bool.not_false,
              Bool.and_self, if_true, Option.some.injEq, Prod.mk.injEq] at h
        rw [← h.1, hm] at hf
        exact absurd hf (by simp)

/-- C10 at the line of the specification: `/* import "github.com/hidden/pkg" */`
starts a block comment and gives no entry, the one-line import on a line
inside a comment is skipped, and the line `*/` ends the comment. -/
theorem block_comment_masks_content_witness :
    scanLine false "/* import \"github.com/hidden/pkg\" */".toList (fileStart [])
      = some ({ fileStart [] with multilineComment := true }, false) ∧
    parseFilesForPackages false ["/* import \"github.com/hidden/pkg\" */".toList] = some [] ∧
    (∃ m, scanLine false "import \"github.com/hidden/pkg\"".toList
        { fileStart [] with multilineComment := true }
      = some ({ fileStart [] with multilineComment := m }, false)) ∧
    Contains "*/".toList "*/".toList = true ∧ Contains "*/".toList "/*".toList = false := by
  refine ⟨(block_comment_masks_content false _ (fileStart [])).1 (by decide), by decide, ?_, ?_⟩
  · exact (block_comment_masks_content false "import \"github.com/hidden/pkg\"".toList
      { fileStart [] with multilineComment := true }).2.1 rfl
  · exact (block_comment_masks_content false "*/".toList
      { fileStart [] with multilineComment := true }).2.2 rfl (fileStart []) false
      (by decide) rfl


/-! ## Entries are external, the walk, totality -/

theorem mem_addUnique (packages : List GoString) (c x : GoString) :
    x ∈ addUnique packages c ↔ x ∈ packages ∨ x = c := by
  rw [addUnique_eq_add]
  unfold PackageSet.Add
  by_cases h : c ∈ packages
  · rw [if_pos h]
    constructor
    · exact Or.inl
    · rintro (h1 | h1)
      · exact h1
      · rw [h1]; exact h
  · rw [if_neg h]
    simp

theorem scanLines_external (debug : Bool) (lines : List GoString) (st st1 : ScanState)
    (h : scanLines debug lines st = some st1)
    (hx : ∀ x ∈ st.packages, isExternal x = true) :
    ∀ x ∈ st1.packages, isExternal x = true := by
  induction lines generalizing st with
  | nil =>
    simp only [scanLines, Option.some.injEq] at h
    rw [← h]; exact hx
  | cons l ls ih =>
    obtain ⟨⟨st2, b⟩, h2⟩ := scanLine_some debug l st
    have hx2 : ∀ x ∈ st2.packages, isExternal x = true := by
      rcases scanLine_packages debug l st st2 b h2 with e | ⟨he, e⟩
      · rw [e]; exact hx
      · rw [e]
        intro x hxm
        rcases (mem_addUnique _ _ _).1 hxm with h3 | h3
        · exact hx x h3
        · rw [h3]; exact he
    cases b with
    | true =>
      simp only [scanLines, h2, Option.some.injEq] at h
      rw [← h]; exact hx2
    | false =>
      simp only [scanLines, h2] at h
      exact ih st2 h hx2

theorem parseFiles_external (debug : Bool) (files : List GoString) (packages r : List GoString)
    (h : parseFiles debug files packages = some r)
    (hx : ∀ x ∈ packages, isExternal x = true) : ∀ x ∈ r, isExternal x = true := by
  induction files generalizing packages with
  | nil =>
    simp only [parseFiles, Option.some.injEq] at h
    rw [← h]; exact hx
  | cons f fs ih =>
    obtain ⟨st, hs⟩ := scanLines_some debug (Split f '\n') (fileStart packages)
    simp only [parseFiles, hs] at h
    exact ih st.packages h (scanLines_external debug _ _ st hs hx)

theorem isExternal_iff (p : GoString) : isExternal p = true ↔ '.' ∈ firstSegment p := by
  simp [isExternal]

theorem hasSuffix_iff (s suffix : GoString) : HasSuffix s suffix = true ↔ suffix <:+ s := by
  unfold HasSuffix
  rw [List.isPrefixOf_iff_prefix, List.reverse_prefix]

/-- What the handler does on a call that comes with a file info. -/
theorem filepathWalkHandler_info (p : Parser) (path : GoString) (isDir : Bool)
    (err : Option GoString) :
    filepathWalkHandler p path (some isDir) err
      = some (if keptEntry { path := path, info := some isDir, err := err } = true
          then { files := p.files ++ [path] } else p, none) := by
  unfold filepathWalkHandler keptEntry
  cases Contains path "/vendor/".toList <;> cases isDir <;>
    cases HasSuffix path ".go".toList <;> rfl

/-- What the handler does on a call without a file info: it returns under
`/vendor/`, and panics elsewhere. -/
theorem filepathWalkHandler_nil (p : Parser) (path : GoString) (err : Option GoString) :
    filepathWalkHandler p path none err
      = if Contains path "/vendor/".toList = true then some (p, none) else none := by
  unfold filepathWalkHandler
  cases Contains path "/vendor/".toList <;> rfl

theorem keptEntry_nil (path : GoString) (err : Option GoString) :
    keptEntry { path := path, info := none, err := err } = false := by
  unfold keptEntry
  cases Contains path "/vendor/".toList <;> rfl

/-- Whenever the handler returns, the error is `nil` and the path is appended
or the parser unchanged, as the entry is kept or not. -/
theorem filepathWalkHandler_some (p : Parser) (path : GoString) (info : Option Bool)
    (err : Option GoString) (p1 : Parser) (e : Option GoString)
    (h : filepathWalkHandler p path info err = some (p1, e)) :
    e = none ∧ p1 = if keptEntry { path := path, info := info, err := err } = true
      then { files := p.files ++ [path] } else p := by
  cases info with
  | some isDir =>
    rw [filepathWalkHandler_info] at h
    simp only [Option.some.injEq, Prod.mk.injEq] at h
    exact ⟨h.2.symm, h.1.symm⟩
  | none =>
    rw [filepathWalkHandler_nil] at h
    by_cases c : Contains path "/vendor/".toList = true
    · rw [if_pos c] at h
      simp only [Option.some.injEq, Prod.mk.injEq] at h
      rw [keptEntry_nil]
      exact ⟨h.2.symm, h.1.symm⟩
    · rw [if_neg c] at h
      exact absurd h (by simp)

/-- The file list after a walk that completes: the list before it, then the
paths of the entries that are kept, in the order of the walk. -/
theorem walkEntries_files (entries : List WalkCall) (p p1 : Parser)
    (h : walkEntries entries p = some p1) :
    p1.files = p.files ++ (entries.filter keptEntry).map WalkCall.path := by
  induction entries generalizing p with
  | nil =>
    simp only [walkEntries, Option.some.injEq] at h
    simp [h]
  | cons e es ih =>
    unfold walkEntries at h
    cases hh : filepathWalkHandler p e.path e.info e.err with
    | none => rw [hh] at h; exact absurd h (by simp)
    | some r =>
      obtain ⟨p2, er⟩ := r
      obtain ⟨he, hp⟩ := filepathWalkHandler_some p e.path e.info e.err p2 er hh
      subst he
      rw [hh] at h
      simp only [] at h
      rw [ih p2 h, hp]
      by_cases hk : keptEntry e = true
      · rw [if_pos hk, List.filter_cons_of_pos hk]
        simp
      · rw [if_neg hk, List.filter_cons_of_neg hk]

/-- The walk completes when every call without a file info is for a path
under `/vendor/`. -/
theorem walkEntries_some (entries : List WalkCall) (p : Parser)
    (h : ∀ e ∈ entries, e.info = none → Contains e.path "/vendor/".toList = true) :
    ∃ p1, walkEntries entries p = some p1 := by
  induction entries generalizing p with
  | nil => exact ⟨p, rfl⟩
  | cons e es ih =>
    have hes := fun x hx => h x (List.mem_cons_of_mem _ hx)
    unfold walkEntries
    cases hi : e.info with
    | some isDir =>
      rw [filepathWalkHandler_info]
      exact ih _ hes
    | none =>
      rw [filepathWalkHandler_nil, if_pos (h e (List.mem_cons_self _ _) hi)]
      exact ih _ hes

theorem parseRun_reset (fs : FileSystem) (debug : Bool) (p q : Parser) :
    parseRun fs debug p = parseRun fs debug q := rfl

theorem readFiles_some (fs : FileSystem) (paths : List GoString)
    (h : ∀ path ∈ paths, (fs.readFile path).isSome = true) :
    ∃ contents, readFiles fs paths = some contents := by
  induction paths with
  | nil => exact ⟨[], rfl⟩
  | cons path rest ih =>
    obtain ⟨more, hm⟩ := ih (fun x hx => h x (List.mem_cons_of_mem _ hx))
    obtain ⟨fileData, hd⟩ := Option.isSome_iff_exists.1 (h path (List.mem_cons_self _ _))
    exact ⟨fileData :: more, by simp [readFiles, hd, hm]⟩

theorem parseFiles_append (debug : Bool) (a b : List GoString) (packages : List GoString) :
    parseFiles debug (a ++ b) packages
      = (parseFiles debug a packages).bind (parseFiles debug b) := by
  induction a generalizing packages with
  | nil => rfl
  | cons f fs ih =>
    obtain ⟨st, hs⟩ := scanLines_some debug (Split f '\n') (fileStart packages)
    simp only [List.cons_append, parseFiles, hs]
    exact ih st.packages

/-! ## The scan does not look at the packages -/

/-- The rest of the loop body hands a list of at most one candidate to the
deduplication; the list and the `break` do not depend on the packages. -/
theorem oneLineAndMagic_uniform (line pn : GoString) (s e m : Bool) :
    ∃ (cs : List GoString) (b : Bool), ∀ packages, oneLineAndMagic line pn
        { packages := packages, importsStart := s, importsEnd := e, multilineComment := m }
      = some ({ packages := cs.foldl addUnique packages, importsStart := s, importsEnd := e,
                multilineComment := m }, b) := by
  have hx : ∃ x, (if Contains line "import \"".toList = true then (Split line ' ')[1]?
      else some pn) = some x := by
    by_cases h : Contains line "import \"".toList = true
    · obtain ⟨x, hx⟩ := split_second line ' ' (mem_of_contains h (by decide))
      exact ⟨x, by rw [if_pos h, hx]⟩
    · exact ⟨pn, by rw [if_neg h]⟩
  obtain ⟨x, hx⟩ := hx
  unfold oneLineAndMagic
  simp only [hx, classify_eq]
  by_cases hx0 : x = []
  · exact ⟨[], e, fun packages => by simp only [hx0, ne_eq, not_true_eq_false, if_false]; rfl⟩
  · by_cases he : isExternal (cleanPackageName line) = true
    · exact ⟨[cleanPackageName line], e, fun packages => by
        simp only [hx0, ne_eq, not_false_eq_true, if_true, he]; rfl⟩
    · exact ⟨[], false, fun packages => by
        simp only [hx0, ne_eq, not_false_eq_true, if_true, he, Bool.false_eq_true, if_false]
        rfl⟩

/-- One line hands a list of at most one candidate to the deduplication; the
list, the flags after the line and the `break` do not depend on the packages. -/
theorem scanLine_uniform (debug : Bool) (line : GoString) (s e m : Bool) :
    ∃ (cs : List GoString) (s1 e1 m1 b : Bool), ∀ packages, scanLine debug line
        { packages := packages, importsStart := s, importsEnd := e, multilineComment := m }
      = some ({ packages := cs.foldl addUnique packages, importsStart := s1, importsEnd := e1,
                multilineComment := m1 }, b) := by
  unfold scanLine
  dsimp only
  by_cases c1 : Contains line "/*".toList = true
  · exact ⟨[], s, e, true, false, fun packages => by rw [if_pos c1]; rfl⟩
  by_cases c2 : (Contains line "*/".toList && m) = true
  · exact ⟨[], s, e, false, false, fun packages => by rw [if_neg c1, if_pos c2]; rfl⟩
  by_cases c3 : (!Contains line "*/".toList && m) = true
  · exact ⟨[], s, e, m, false, fun packages => by rw [if_neg c1, if_neg c2, if_pos c3]; rfl⟩
  by_cases c4 : Contains line "import (".toList = true
  · exact ⟨[], true, e, m, false, fun packages => by
      rw [if_neg c1, if_neg c2, if_neg c3, if_pos c4]; rfl⟩
  by_cases c5 : s = true
  · by_cases c6 : (Contains line ")".toList && debug) = true
    · exact ⟨[], false, true, m, false, fun packages => by
        rw [if_neg c1, if_neg c2, if_neg c3, if_neg c4, if_pos c5, if_pos c6]; rfl⟩
    by_cases c7 : Contains line "//".toList = true
    · exact ⟨[], s, e, m, false, fun packages => by
        rw [if_neg c1, if_neg c2, if_neg c3, if_neg c4, if_pos c5, if_neg c6, if_pos c7]; rfl⟩
    by_cases c8 : (!Contains line "\"".toList) = true
    · exact ⟨[], s, e, m, false, fun packages => by
        rw [if_neg c1, if_neg c2, if_neg c3, if_neg c4, if_pos c5, if_neg c6, if_neg c7,
          if_pos c8]; rfl⟩
    obtain ⟨cs, b, h⟩ := oneLineAndMagic_uniform line (Trim line " ".toList) s e m
    exact ⟨cs, s, e, m, b, fun packages => by
      rw [if_neg c1, if_neg c2, if_neg c3, if_neg c4, if_pos c5, if_neg c6, if_neg c7,
        if_neg c8]
      exact h packages⟩
  · obtain ⟨cs, b, h⟩ := oneLineAndMagic_uniform line [] s e m
    exact ⟨cs, s, e, m, b, fun packages => by
      rw [if_neg c1, if_neg c2, if_neg c3, if_neg c4, if_neg c5]
      exact h packages⟩

/-- The lines of a file hand a list of candidates to the deduplication; the
list does not depend on the packages found so far. -/
theorem scanLines_uniform (debug : Bool) (lines : List GoString) (s e m : Bool) :
    ∃ (cs : List GoString) (s1 e1 m1 : Bool), ∀ packages, scanLines debug lines
        { packages := packages, importsStart := s, importsEnd := e, multilineComment := m }
      = some { packages := cs.foldl addUnique packages, importsStart := s1, importsEnd := e1,
               multilineComment := m1 } := by
  induction lines generalizing s e m with
  | nil => exact ⟨[], s, e, m, fun packages => rfl⟩
  | cons l ls ih =>
    obtain ⟨cs, s1, e1, m1, b, h⟩ := scanLine_uniform debug l s e m
    cases b with
    | true => exact ⟨cs, s1, e1, m1, fun packages => by rw [scanLines, h packages]⟩
    | false =>
      obtain ⟨cs2, s2, e2, m2, h2⟩ := ih s1 e1 m1
      exact ⟨cs ++ cs2, s2, e2, m2, fun packages => by
        rw [scanLines, h packages]
        simp only []
        rw [h2, List.foldl_append]⟩

/-- The files hand a list of candidates to the deduplication; the list does
not depend on the packages the scan starts with. -/
theorem parseFiles_uniform (debug : Bool) (files : List GoString) :
    ∃ cs : List GoString, ∀ packages,
      parseFiles debug files packages = some (cs.foldl addUnique packages) := by
  induction files with
  | nil => exact ⟨[], fun packages => rfl⟩
  | cons f fs ih =>
    obtain ⟨cs, s1, e1, m1, h⟩ := scanLines_uniform debug (Split f '\n') false false false
    obtain ⟨cs2, h2⟩ := ih
    exact ⟨cs ++ cs2, fun packages => by
      rw [parseFiles]
      show (match scanLines debug (Split f '\n')
          { packages := packages, importsStart := false, importsEnd := false,
            multilineComment := false } with
        | none => none
        | some st => parseFiles debug fs st.packages) = _
      rw [h packages]
      simp only []
      rw [h2, List.foldl_append]⟩

/-! ## The claims, continued -/

/-- C11: the scan returns a list for every list of file contents, and every
entry of it is external: its first segment, the text before the first `/`
(the first piece of the split on `/`), contains a dot.  A line only adds its
cleaned text, and only when the first segment of it contains a dot. -/
theorem entries_are_external (debug : Bool) (files : List GoString) (line : GoString)
    (st : ScanState) :
    (∃ r, parseFilesForPackages debug files = some r ∧
      ∀ p ∈ r, '.' ∈ firstSegment p ∧ (Split p '/')[0]? = some (firstSegment p)) ∧
    (∀ st1 b, scanLine debug line st = some (st1, b) →
      ∀ p ∈ st1.packages,
        p ∈ st.packages ∨ (p = cleanPackageName line ∧ '.' ∈ firstSegment p)) := by
  constructor
  · obtain ⟨r, hr⟩ := parseFiles_some debug files []
    refine ⟨r, hr, fun p hp => ⟨?_, split_head p '/'⟩⟩
    exact (isExternal_iff p).1
      (parseFiles_external debug files [] r hr (fun x hx => absurd hx (List.not_mem_nil x)) p hp)
  · intro st1 b h p hp
    rcases scanLine_packages debug line st st1 b h with e | ⟨he, e⟩
    · rw [e] at hp; exact Or.inl hp
    · rw [e] at hp
      rcases (mem_addUnique _ _ _).1 hp with h1 | h1
      · exact Or.inl h1
      · exact Or.inr ⟨h1, (isExternal_iff p).1 (h1 ▸ he)⟩

/-- C11 at a block with a builtin and an external import: only the external
path is returned, and the line `"fmt"` adds nothing to the packages. -/
theorem entries_are_external_witness :
    (∃ r, parseFilesForPackages true ["import (\n\t\"fmt\"\n\t\"gopkg.in/yaml.v2\"\n)".toList]
        = some r ∧
      ∀ p ∈ r, '.' ∈ firstSegment p ∧ (Split p '/')[0]? = some (firstSegment p)) ∧
    ∀ p ∈ ([] : List GoString), p ∈ ([] : List GoString) ∨
      (p = cleanPackageName "\t\"fmt\"".toList ∧ '.' ∈ firstSegment p) :=
  ⟨(entries_are_external true ["import (\n\t\"fmt\"\n\t\"gopkg.in/yaml.v2\"\n)".toList]
      "\t\"fmt\"".toList
      { packages := [], importsStart := true, importsEnd := false,
        multilineComment := false }).1,
    (entries_are_external true [] "\t\"fmt\"".toList
      { packages := [], importsStart := true, importsEnd := false,
        multilineComment := false }).2
      { packages := [], importsStart := true, importsEnd := false, multilineComment := false }
      false (by decide)⟩

/-- C12, counterexample: called with a nil file info, as `filepath.Walk` calls
it after a failed `lstat`, on the path `gone.go`, the handler panics at
`info.IsDir()` and returns no error; the walk that makes this call ends in
the panic. -/
theorem walk_handler_panics_without_file_info :
    filepathWalkHandler { files := ["a.go".toList] } "gone.go".toList none
        (some "lstat gone.go: no such file or directory".toList) = none ∧
    walk
        { entries :=
            [{ path := ".".toList, info := some true, err := none },
             { path := "a.go".toList, info := some false, err := none },
             { path := "gone.go".toList, info := none,
               err := some "lstat gone.go: no such file or directory".toList }],
          readFile := fun _ => none }
        { files := [] } = none := by
  constructor <;> rfl

/-- C12, as amended: the handler panics exactly when it is called with a nil
file info on a path that does not contain `/vendor/`.  On every other call
it returns a `nil` error, and it appends the path at the end of the file list
exactly when the entry is kept, that is when the path does not contain
`/vendor/`, the file info is not of a directory and the path ends in `.go`;
otherwise the list is unchanged.  The list before a call is a prefix of the
list after it, and a walk without such a panicking call completes and adds
the paths of the kept entries, in the order of the walk. -/
theorem walk_handler_keeps_go_files (p : Parser) (path : GoString) (info : Option Bool)
    (err : Option GoString) (fs : FileSystem) :
    (keptEntry { path := path, info := info, err := err } = true ↔
      ¬ "/vendor/".toList <:+: path ∧ info = some false ∧ ".go".toList <:+ path) ∧
    (filepathWalkHandler p path info err = none ↔
      info = none ∧ ¬ "/vendor/".toList <:+: path) ∧
    (info ≠ none ∨ "/vendor/".toList <:+: path →
      filepathWalkHandler p path info err
        = some (if keptEntry { path := path, info := info, err := err } = true
            then { files := p.files ++ [path] } else p, none)) ∧
    (∀ p1 e, filepathWalkHandler p path info err = some (p1, e) →
      e = none ∧ p.files <+: p1.files) ∧
    ((∀ e ∈ fs.entries, e.info = none → "/vendor/".toList <:+: e.path) →
      ∃ p1, walk fs p = some p1 ∧
        p1.files = p.files ++ (fs.entries.filter keptEntry).map WalkCall.path) := by
  have hret : ∀ p1 e, filepathWalkHandler p path info err = some (p1, e) →
      e = none ∧ p1 = if keptEntry { path := path, info := info, err := err } = true
        then { files := p.files ++ [path] } else p :=
    fun p1 e h => filepathWalkHandler_some p path info err p1 e h
  have hnone : filepathWalkHandler p path info err = none ↔
      info = none ∧ ¬ "/vendor/".toList <:+: path := by
    rw [← contains_iff]
    cases info with
    | some isDir => rw [filepathWalkHandler_info]; simp
    | none =>
      rw [filepathWalkHandler_nil]
      by_cases c : Contains path "/vendor/".toList = true
      · rw [if_pos c]
        exact ⟨fun h => absurd h (by simp), fun h => absurd c h.2⟩
      · rw [if_neg c]
        exact ⟨fun _ => ⟨rfl, c⟩, fun _ => rfl⟩
  refine ⟨?_, hnone, ?_, ?_, ?_⟩
  · unfold keptEntry
    simp only [Bool.and_eq_true, Bool.not_eq_true', beq_iff_eq, ← hasSuffix_iff,
      ← contains_iff, Bool.not_eq_true, and_assoc]
  · intro h
    cases hh : filepathWalkHandler p path info err with
    | none =>
      obtain ⟨h1, h2⟩ := hnone.1 hh
      rcases h with h | h
      · exact absurd h1 h
      · exact absurd h h2
    | some r =>
      obtain ⟨p1, e⟩ := r
      obtain ⟨he, hp⟩ := hret p1 e hh
      rw [he, hp]
  · intro p1 e h
    obtain ⟨he, hp⟩ := hret p1 e h
    refine ⟨he, ?_⟩
    rw [hp]
    by_cases hk : keptEntry { path := path, info := info, err := err } = true
    · rw [if_pos hk]; exact List.prefix_append _ _
    · rw [if_neg hk]
  · intro h
    obtain ⟨p1, h1⟩ := walkEntries_some fs.entries p
      (fun e he hi => (contains_iff _ _).2 (h e he hi))
    exact ⟨p1, h1, walkEntries_files fs.entries p p1 h1⟩

/-- C12, the amended claim at five calls: a Go file is appended after the
entries already collected; a directory named `x.go`, a file without the
suffix, a file under `/vendor/` and a call without file info under `/vendor/`
leave the list as it is; every one of them returns a `nil` error. -/
theorem walk_handler_keeps_go_files_witness :
    filepathWalkHandler { files := ["a.go".toList] } "cmd/main.go".toList (some false) none
      = some ({ files := ["a.go".toList, "cmd/main.go".toList] }, none) ∧
    filepathWalkHandler { files := ["a.go".toList] } "x.go".toList (some true) none
      = some ({ files := ["a.go".toList] }, none) ∧
    filepathWalkHandler { files := ["a.go".toList] } "README.md".toList (some false) none
      = some ({ files := ["a.go".toList] }, none) ∧
    filepathWalkHandler { files := ["a.go".toList] } "lib/vendor/x/y.go".toList (some false) none
      = some ({ files := ["a.go".toList] }, none) ∧
    filepathWalkHandler { files := ["a.go".toList] } "lib/vendor/gone.go".toList none
        (some "lstat".toList)
      = some ({ files := ["a.go".toList] }, none) :=
  ⟨((walk_handler_keeps_go_files { files := ["a.go".toList] } "cmd/main.go".toList
      (some false) none { entries := [], readFile := fun _ => none }).2.2.1
      (Or.inl (by decide))).trans (by decide),
    ((walk_handler_keeps_go_files { files := ["a.go".toList] } "x.go".toList
      (some true) none { entries := [], readFile := fun _ => none }).2.2.1
      (Or.inl (by decide))).trans (by decide),
    ((walk_handler_keeps_go_files { files := ["a.go".toList] } "README.md".toList
      (some false) none { entries := [], readFile := fun _ => none }).2.2.1
      (Or.inl (by decide))).trans (by decide),
    ((walk_handler_keeps_go_files { files := ["a.go".toList] } "lib/vendor/x/y.go".toList
      (some false) none { entries := [], readFile := fun _ => none }).2.2.1
      (Or.inl (by decide))).trans (by decide),
    ((walk_handler_keeps_go_files { files := ["a.go".toList] } "lib/vendor/gone.go".toList
      none (some "lstat".toList) { entries := [], readFile := fun _ => none }).2.2.1
      (Or.inr (by decide))).trans (by decide)⟩

/-- C13, the code at the failing input: for a project with the one file
`main.go` that imports `github.com/pztrn/flagger`, the scan inside `Parse`
computes the list with that path, and `Parse` returns the empty slice. -/
theorem parse_returns_nothing (debug : Bool) (p : Parser) :
    parseRun
        { entries := [{ path := ".".toList, info := some true, err := none },
            { path := "main.go".toList, info := some false, err := none }],
          readFile := fun path =>
            if path = "main.go".toList
            then some "package main\n\nimport (\n\t\"github.com/pztrn/flagger\"\n)\n".toList
            else none }
        debug p
      = some ({ files := ["main.go".toList] }, ["github.com/pztrn/flagger".toList]) ∧
    Parse
        { entries := [{ path := ".".toList, info := some true, err := none },
            { path := "main.go".toList, info := some false, err := none }],
          readFile := fun path =>
            if path = "main.go".toList
            then some "package main\n\nimport (\n\t\"github.com/pztrn/flagger\"\n)\n".toList
            else none }
        debug p
      = some ({ files := ["main.go".toList] }, []) := by
  cases debug <;> exact ⟨rfl, rfl⟩

/-- C14: inside an import block, a line that contains `//`, or that contains
no double quote, never ends the scan and leaves the packages as they are,
whatever else is on the line. -/
theorem comment_or_unquoted_line_adds_nothing (debug : Bool) (line : GoString)
    (st : ScanState) (hs : st.importsStart = true)
    (h : Contains line "//".toList = true ∨ Contains line "\"".toList = false) :
    ∃ st1, scanLine debug line st = some (st1, false) ∧ st1.packages = st.packages := by
  unfold scanLine
  by_cases c1 : Contains line "/*".toList = true
  · exact ⟨{ st with multilineComment := true }, by rw [if_pos c1], rfl⟩
  rw [if_neg c1]
  by_cases c2 : (Contains line "*/".toList && st.multilineComment) = true
  · exact ⟨{ st with multilineComment := false }, by rw [if_pos c2], rfl⟩
  rw [if_neg c2]
  by_cases c3 : (!Contains line "*/".toList && st.multilineComment) = true
  · exact ⟨st, by rw [if_pos c3], rfl⟩
  rw [if_neg c3]
  by_cases c4 : Contains line "import (".toList = true
  · exact ⟨{ st with importsStart := true }, by rw [if_pos c4], rfl⟩
  rw [if_neg c4, if_pos hs]
  by_cases c6 : (Contains line ")".toList && debug) = true
  · exact ⟨{ st with importsStart := false, importsEnd := true }, by rw [if_pos c6], rfl⟩
  rw [if_neg c6]
  by_cases c7 : Contains line "//".toList = true
  · exact ⟨st, by rw [if_pos c7], rfl⟩
  rw [if_neg c7]
  have c8 : Contains line "\"".toList = false := h.resolve_left c7
  exact ⟨st, by rw [if_pos (by rw [c8]; rfl)], rfl⟩

/-- C14 at the line made of a tab and `"github.com/a/b" // note`, and at the
line `fmt`, scanned inside an import block: no entry. -/
theorem comment_or_unquoted_line_adds_nothing_witness :
    (∃ st1, scanLine false "\t\"github.com/a/b\" // note".toList
        { packages := [], importsStart := true, importsEnd := false, multilineComment := false }
      = some (st1, false) ∧ st1.packages = []) ∧
    (∃ st1, scanLine true "\tfmt".toList
        { packages := [], importsStart := true, importsEnd := false, multilineComment := false }
      = some (st1, false) ∧ st1.packages = []) :=
  ⟨comment_or_unquoted_line_adds_nothing false "\t\"github.com/a/b\" // note".toList
      { packages := [], importsStart := true, importsEnd := false, multilineComment := false }
      rfl (Or.inl (by decide)),
    comment_or_unquoted_line_adds_nothing true "\tfmt".toList
      { packages := [], importsStart := true, importsEnd := false, multilineComment := false }
      rfl (Or.inr (by decide))⟩

/-- C15: the flags are per file and only the package list is shared: the scan
of `a ++ b` returns the result of the scan of `a`, followed by the entries of
the result of the scan of `b` that are not in it, in their order.  All three
scans return. -/
theorem scan_of_appended_projects (debug : Bool) (a b : List GoString) :
    ∃ ra rb, parseFilesForPackages debug a = some ra ∧
      parseFilesForPackages debug b = some rb ∧
      parseFilesForPackages debug (a ++ b)
        = some (ra ++ rb.filter (fun x => decide (x ∉ ra))) := by
  obtain ⟨ra, ha⟩ := parseFiles_some debug a []
  obtain ⟨cs, hb⟩ := parseFiles_uniform debug b
  refine ⟨ra, cs.foldl addUnique [], ha, hb [], ?_⟩
  unfold parseFilesForPackages
  rw [parseFiles_append, ha, Option.some_bind, hb ra, foldl_addUnique, foldl_addUnique_nil,
    dedupFirst_filter]

/-- C16, counterexample: after the lines `import (` and `/* x` of a file both
flags are set, for both values of the debug flag. -/
theorem both_flags_set_in_block :
    scanLines true ["import (".toList, "/* x".toList] (fileStart [])
      = some { packages := [], importsStart := true, importsEnd := false,
               multilineComment := true } ∧
    scanLines false ["import (".toList, "/* x".toList] (fileStart [])
      = some { packages := [], importsStart := true, importsEnd := false,
               multilineComment := true } := by
  constructor <;> decide

/-- C16, as amended: the block comment takes precedence over the import block
during the classification of a line.  When the line contains `/*` or the
in-comment flag is set, the line is handled the same whatever the
in-import-block flag is: it changes at most the in-comment flag, keeps the
in-import-block flag and the packages, and does not end the scan. -/
theorem comment_takes_precedence (debug : Bool) (line : GoString) (st : ScanState)
    (h : Contains line "/*".toList = true ∨ st.multilineComment = true) :
    ∃ m, ∀ s, scanLine debug line { st with importsStart := s }
      = some ({ st with importsStart := s, multilineComment := m }, false) := by
  by_cases c1 : Contains line "/*".toList = true
  · exact ⟨true, fun s => by unfold scanLine; rw [if_pos c1]⟩
  · have hm : st.multilineComment = true := h.resolve_left c1
    by_cases c2 : Contains line "*/".toList = true
    · refine ⟨false, fun s => ?_⟩
      unfold scanLine
      rw [if_neg c1, if_pos (by simp only [c2, hm, Bool.and_self])]
    · refine ⟨true, fun s => ?_⟩
      unfold scanLine
      rw [if_neg c1, if_neg (by simp only [c2, Bool.false_and, Bool.false_eq_true,
        not_false_eq_true]), if_pos (by simp only [c2, hm, Bool.not_false, Bool.and_self])]
      cases st
      simp_all

/-- C16, the amended claim inside a comment: the line `import (` is skipped
with the in-import-block flag clear or set; and at the line `*/`, which ends
the comment. -/
theorem comment_takes_precedence_witness :
    (∃ m, ∀ s, scanLine false "import (".toList
        { packages := [], importsStart := s, importsEnd := false, multilineComment := true }
      = some ({ packages := [], importsStart := s, importsEnd := false,
                multilineComment := m }, false)) ∧
    scanLine false "*/".toList
        { packages := [], importsStart := true, importsEnd := false, multilineComment := true }
      = some ({ packages := [], importsStart := true, importsEnd := false,
                multilineComment := false }, false) :=
  ⟨comment_takes_precedence false "import (".toList
      { packages := [], importsStart := false, importsEnd := false, multilineComment := true }
      (Or.inr rfl),
    by decide⟩

/-- C17: when the walk completes (every call of the handler without a file
info is for a path under `/vendor/`) and the files that it collects can be
read, `Parse` returns; the file list after it is the list of the kept entries
of the walk, whatever it was before; and a second call on the parser that the
first call left computes the same file list and the same package list, and
returns the same value. -/
theorem parse_twice_gives_the_same (fs : FileSystem) (debug : Bool) (p : Parser)
    (hi : ∀ e ∈ fs.entries, e.info = none → Contains e.path "/vendor/".toList = true)
    (hr : ∀ path ∈ (fs.entries.filter keptEntry).map WalkCall.path,
      (fs.readFile path).isSome = true) :
    ∃ p1 packages, parseRun fs debug p = some (p1, packages) ∧
      p1.files = (fs.entries.filter keptEntry).map WalkCall.path ∧
      parseRun fs debug p1 = some (p1, packages) ∧
      Parse fs debug p = some (p1, []) ∧ Parse fs debug p1 = some (p1, []) := by
  obtain ⟨p0, h0⟩ := walkEntries_some fs.entries { files := [] } hi
  have hw : p0.files = (fs.entries.filter keptEntry).map WalkCall.path := by
    rw [walkEntries_files fs.entries _ p0 h0]; rfl
  obtain ⟨contents, hc⟩ := readFiles_some fs _ hr
  rw [← hw] at hc
  obtain ⟨packages, hp⟩ := parseFiles_some debug contents []
  have h1 : ∀ q : Parser, parseRun fs debug q = some (p0, packages) := by
    intro q
    unfold parseRun walk
    simp only [h0, hc]
    unfold parseFilesForPackages
    rw [hp]
  have h2 : ∀ q : Parser, Parse fs debug q = some (p0, []) := by
    intro q
    unfold Parse
    rw [h1 q]
  exact ⟨p0, packages, h1 p, hw, h1 _, h2 p, h2 _⟩

/-- C17 at a project with two Go files and a text file, for a parser that
holds an old file list: both calls leave the list of the two Go files and
compute the same packages. -/
theorem parse_twice_gives_the_same_witness :
    ∃ p1 packages,
      parseRun
          { entries :=
              [{ path := ".".toList, info := some true, err := none },
               { path := "a.go".toList, info := some false, err := none },
               { path := "b.go".toList, info := some false, err := none },
               { path := "notes.txt".toList, info := some false, err := none }],
            readFile := fun path =>
              if path = "a.go".toList then some "import (\n\t\"github.com/x/y\"\n)".toList
              else if path = "b.go".toList then some "import (\n\t\"gopkg.in/yaml.v2\"\n)".toList
              else none }
          true { files := ["old.go".toList] } = some (p1, packages) ∧
      p1.files = ["a.go".toList, "b.go".toList] ∧
      parseRun
          { entries :=
              [{ path := ".".toList, info := some true, err := none },
               { path := "a.go".toList, info := some false, err := none },
               { path := "b.go".toList, info := some false, err := none },
               { path := "notes.txt".toList, info := some false, err := none }],
            readFile := fun path =>
              if path = "a.go".toList then some "import (\n\t\"github.com/x/y\"\n)".toList
              else if path = "b.go".toList then some "import (\n\t\"gopkg.in/yaml.v2\"\n)".toList
              else none }
          true p1 = some (p1, packages) := by
  obtain ⟨p1, packages, h1, h2, h3, _, _⟩ := parse_twice_gives_the_same
    { entries :=
        [{ path := ".".toList, info := some true, err := none },
         { path := "a.go".toList, info := some false, err := none },
         { path := "b.go".toList, info := some false, err := none },
         { path := "notes.txt".toList, info := some false, err := none }],
      readFile := fun path =>
        if path = "a.go".toList then some "import (\n\t\"github.com/x/y\"\n)".toList
        else if path = "b.go".toList then some "import (\n\t\"gopkg.in/yaml.v2\"\n)".toList
        else none }
    true { files := ["old.go".toList] } (by decide) (by decide)
  exact ⟨p1, packages, h1, h2.trans (by decide), h3⟩

/-- C18: the scan returns a list for every list of file contents, so no index
expression of it panics: the split of a line on a space has a second piece
whenever the line contains `import "`, and the split of any text on `/` has
a first piece. -/
theorem scan_is_total (debug : Bool) (files : List GoString) (line text : GoString) :
    (∃ r, parseFilesForPackages debug files = some r) ∧
    (∃ r, scanLine debug line (fileStart []) = some r) ∧
    (Contains line "import \"".toList = true →
      2 ≤ (Split line ' ').length ∧ ∃ x, (Split line ' ')[1]? = some x) ∧
    (1 ≤ (Split text '/').length ∧ ∃ x, (Split text '/')[0]? = some x) := by
  refine ⟨parseFiles_some debug files [], scanLine_some debug line _, ?_, ?_⟩
  · intro h
    obtain ⟨x, hx⟩ := split_second line ' ' (mem_of_contains h (by decide))
    refine ⟨?_, x, hx⟩
    by_contra hlt
    rw [List.getElem?_eq_none (by omega)] at hx
    exact absurd hx (by simp)
  · refine ⟨?_, _, split_head text '/'⟩
    have := split_ne_nil text '/'
    cases hs : Split text '/' with
    | nil => exact absurd hs this
    | cons w ws => simp

/-- C18 at the files `""` and `import "`: the scan returns the empty list,
and the split of the line `import "` on a space has the two pieces `import`
and `"`. -/
theorem scan_is_total_witness :
    parseFilesForPackages false [[], "import \"".toList] = some [] ∧
    Split "import \"".toList ' ' = ["import".toList, "\"".toList] ∧
    2 ≤ (Split "import \"".toList ' ').length := by
  refine ⟨by decide, by decide, ?_⟩
  exact ((scan_is_total false [] "import \"".toList []).2.2.1 (by decide)).1

end Godepo
